import Mathlib

/-!
Verification development for `lattice-char-to-word.cc`: a shallow embedding of
the `ExpandFst` algorithm (collapsing delimiter-separated runs of a weighted
FST into single word arcs), its label-sequence interner, the symbol-table
construction, and the delimiter parsing of `main`, together with theorems
settling the specified properties.
-/

namespace LCW

/-- An arc of a weighted FST, as in OpenFst: input label, output label,
weight, destination state.  Labels are non-negative integers; 0 is epsilon. -/
structure Arc (W : Type) where
  ilabel : Nat
  olabel : Nat
  weight : W
  nextstate : Nat
  deriving DecidableEq

/-- The weight operations `ExpandFst` consumes: `Times` (written `times`),
`One`, and `Zero`, mirroring the OpenFst semiring interface. -/
structure WeightOps (W : Type) where
  one : W
  zero : W
  times : W → W → W

/-- A source FST.  States are `0 .. finals.length - 1`; `finals` carries the
per-state final weights (`zero` meaning non-final) and `arcs` the per-state
arc lists in their stored order. -/
structure Wfst (W : Type) where
  start : Nat
  finals : List W
  arcs : List (List (Arc W))
  deriving DecidableEq

/-- Number of states of a source FST. -/
def Wfst.numStates {W : Type} (f : Wfst W) : Nat := f.finals.length

/-- The arcs leaving state `s` (empty for out-of-range states). -/
def arcsOf {W : Type} (f : Wfst W) (s : Nat) : List (Arc W) := f.arcs.getD s []

/-- `Final(s)` of the source FST (`zero` for out-of-range states). -/
def finalOf {W : Type} (ops : WeightOps W) (f : Wfst W) (s : Nat) : W :=
  f.finals.getD s ops.zero

/-- The side of an arc matched against the delimiter set:
`match_input ? arc.ilabel : arc.olabel` in the C++ template. -/
def matchLabel {W : Type} (mi : Bool) (a : Arc W) : Nat :=
  if mi then a.ilabel else a.olabel

/-- The configuration of one `ExpandFst` call: the template flag
`match_input`, the delimiter label set (as a list, used only through
membership) and `max_length`. -/
structure Config where
  matchInput : Bool
  delim : List Nat
  maxLength : Nat

/-! ### The label-sequence interner

The C++ code interns label sequences through
`map->insert(make_pair(seq, map->size())).first->second` over a
`std::unordered_map<std::vector<Label>, Label>`.  We model the map as an
association list in insertion order; `insert` is a no-op returning the
existing value when the key is present, and otherwise appends the pair. -/

/-- The interner state: key/value pairs in insertion order. -/
abbrev Interner : Type := List (List Nat × Nat)

/-- Look a sequence up in the interner (`map->find`). -/
def internLookup (m : Interner) (s : List Nat) : Option Nat :=
  match m with
  | [] => none
  | kv :: r => if kv.1 = s then some kv.2 else internLookup r s

/-- `map->insert(make_pair(s, v)).first->second` together with the updated
map: returns the existing value when present, otherwise inserts `(s, v)`. -/
def internInsertKV (m : Interner) (s : List Nat) (v : Nat) : Nat × Interner :=
  match internLookup m s with
  | some v0 => (v0, m)
  | none => (v, m ++ [(s, v)])

/-- Size of the interner (`map->size()`). -/
def internSize (m : Interner) : Nat := m.length

/-- One interning step as performed by `ExpandFst`:
`map->insert(make_pair(seq, map->size())).first->second`. -/
def intern (m : Interner) (s : List Nat) : Nat × Interner :=
  internInsertKV m s (internSize m)

/-- The reserved-epsilon insertion done at the top of `ExpandFst`:
`map->insert(make_pair(vector{}, 0))`. -/
def reserveEpsilon (m : Interner) : Interner :=
  (internInsertKV m [] 0).2

/-- The reset interner state: what the driver's `label_map.clear()` followed
by `ExpandFst`'s reserved-epsilon insertion produces. -/
def internReset : Interner := reserveEpsilon []

/-- Interning a list of sequences in order, returning the final state. -/
def internMany (m : Interner) (ss : List (List Nat)) : Interner :=
  ss.foldl (fun m s => (intern m s).2) m

/-- The ids assigned to a list of sequences interned in order. -/
def internManyIds (m : Interner) (ss : List (List Nat)) : List Nat :=
  match ss with
  | [] => []
  | s :: r =>
    let p := intern m s
    p.1 :: internManyIds p.2 r

/-! ### The ExpandFst algorithm

`ExpandFst` copies the states (and final weights) of the source FST, adds a
pass-through arc for every source arc whose match-side label is a delimiter
(recording the arc's destination, and the start state, as word-start states),
then runs a bounded depth-first search from every word-start state using an
explicit stack of `(q0, q1, w, ilbls, olbls)` tuples, and finally trims the
result with OpenFst's `Connect`.  Arcs added to the output FST are modelled
as a flat list in insertion order, each remembering its source state. -/

/-- An arc added to the output FST, with its source state. -/
structure EArc (W : Type) where
  src : Nat
  ilabel : Nat
  olabel : Nat
  weight : W
  dst : Nat
  deriving DecidableEq

/-- Insertion into the `add_to_initial_stack` set, modelled as a list in
first-insertion order. -/
def setInsert (l : List Nat) (x : Nat) : List Nat :=
  if x ∈ l then l else l ++ [x]

/-- State of the pass-through scan: the two interner maps, the arcs added to
the output FST so far, and the word-start states collected so far. -/
structure Phase2St (W : Type) where
  imap : Interner
  omap : Interner
  arcs : List (EArc W)
  wordStarts : List Nat

/-- All `(state, arc)` pairs of the source FST, in iteration order (states
ascending, arcs in stored order). -/
def stateArcPairs {W : Type} (f : Wfst W) : List (Nat × Arc W) :=
  (List.range f.numStates).flatMap (fun s => (arcsOf f s).map (fun a => (s, a)))

/-- The one-element input label sequence of an arc, empty for epsilon
(`if (arc.ilabel != 0) i_l.push_back(arc.ilabel)`). -/
def ilSeq {W : Type} (a : Arc W) : List Nat :=
  if a.ilabel ≠ 0 then [a.ilabel] else []

/-- The one-element output label sequence of an arc, empty for epsilon. -/
def olSeq {W : Type} (a : Arc W) : List Nat :=
  if a.olabel ≠ 0 then [a.olabel] else []

/-- The body of the pass-through scan for one `(state, arc)` pair: when the
match-side label is a delimiter, intern the one-element (or empty, for
epsilon) label sequences of the arc, add the corresponding arc to the output
FST and record its destination as a word-start state. -/
def passArcStep {W : Type} (mi : Bool) (delim : List Nat) (st : Phase2St W)
    (sa : Nat × Arc W) : Phase2St W :=
  if matchLabel mi sa.2 ∈ delim then
    let ip := intern st.imap (ilSeq sa.2)
    let op := intern st.omap (olSeq sa.2)
    ⟨ip.2, op.2, st.arcs ++ [⟨sa.1, ip.1, op.1, sa.2.weight, sa.2.nextstate⟩],
     setInsert st.wordStarts sa.2.nextstate⟩
  else st

/-- The pass-through scan (step 2 of the algorithm) over all arcs of the
source FST, starting from the reserved-epsilon interner states and with the
source's start state already marked as a word-start state. -/
def phase2 {W : Type} (src : Wfst W) (cfg : Config) (imap0 omap0 : Interner) :
    Phase2St W :=
  (stateArcPairs src).foldl (passArcStep cfg.matchInput cfg.delim)
    ⟨reserveEpsilon imap0, reserveEpsilon omap0, [], [src.start]⟩

/-- A tuple of the search stack: origin state, current state, accumulated
weight, accumulated input and output label sequences. -/
structure SState (W : Type) where
  q0 : Nat
  q1 : Nat
  w : W
  ilbls : List Nat
  olbls : List Nat
  deriving DecidableEq

/-- The accumulated length on the match side of a stack tuple
(`match_input ? ilbls.size() : olbls.size()`). -/
def matchLen {W : Type} (mi : Bool) (t : SState W) : Nat :=
  if mi then t.ilbls.length else t.olbls.length

/-- The extension of a stack tuple through one non-delimiter arc, when the
new match-side length stays within `max_length`; `none` when pruned. -/
def pushOf {W : Type} (cfg : Config) (ops : WeightOps W) (t : SState W)
    (a : Arc W) : Option (SState W) :=
  let ml := matchLabel cfg.matchInput a
  let curLength := matchLen cfg.matchInput t
  let newLength := curLength + (if ml = 0 then 0 else 1)
  if newLength ≤ cfg.maxLength then
    some ⟨t.q0, a.nextstate, ops.times t.w a.weight,
          t.ilbls ++ (if a.ilabel ≠ 0 then [a.ilabel] else []),
          t.olbls ++ (if a.olabel ≠ 0 then [a.olabel] else [])⟩
  else none

/-- The body of the arc scan for a popped tuple: a delimiter arc sets the
`has_delim_arc` flag, a non-delimiter arc may extend the path.  The
accumulator holds the tuples pushed so far (in arc order) and the flag. -/
def arcBody {W : Type} (cfg : Config) (ops : WeightOps W) (t : SState W)
    (acc : List (SState W) × Bool) (a : Arc W) : List (SState W) × Bool :=
  if matchLabel cfg.matchInput a ∈ cfg.delim then (acc.1, true)
  else
    match pushOf cfg ops t a with
    | some t' => (acc.1 ++ [t'], acc.2)
    | none => acc

/-- The full arc scan of a popped tuple over the arcs leaving `q1`. -/
def scanArcs {W : Type} (src : Wfst W) (cfg : Config) (ops : WeightOps W)
    (t : SState W) : List (SState W) × Bool :=
  (arcsOf src t.q1).foldl (arcBody cfg ops t) ([], false)

/-- State of the bounded search: the stack, the two interner maps, and the
arcs added to the output FST so far. -/
structure LoopSt (W : Type) where
  stack : List (SState W)
  imap : Interner
  omap : Interner
  arcs : List (EArc W)
  deriving DecidableEq

/-- Processing of one popped tuple: scan the arcs leaving `q1` (pushing the
surviving extensions, in arc order, onto the stack), then emit the collapsed
arc `q0 → q1` when `q0 ≠ q1` and `q1` has a delimiter arc or is final. -/
def stepTuple {W : Type} [DecidableEq W] (src : Wfst W) (cfg : Config)
    (ops : WeightOps W) (t : SState W) (rest : List (SState W))
    (imap omap : Interner) (acc : List (EArc W)) : LoopSt W :=
  if t.q0 ≠ t.q1 ∧
      ((scanArcs src cfg ops t).2 = true ∨ finalOf ops src t.q1 ≠ ops.zero) then
    ⟨(scanArcs src cfg ops t).1.reverse ++ rest,
     (intern imap t.ilbls).2, (intern omap t.olbls).2,
     acc ++ [⟨t.q0, (intern imap t.ilbls).1, (intern omap t.olbls).1, t.w, t.q1⟩]⟩
  else ⟨(scanArcs src cfg ops t).1.reverse ++ rest, imap, omap, acc⟩

/-- The bounded search loop (`while (!S.empty())`), with explicit fuel. -/
def expandLoop {W : Type} [DecidableEq W] (src : Wfst W) (cfg : Config)
    (ops : WeightOps W) : Nat → LoopSt W → LoopSt W
  | 0, st => st
  | fuel + 1, st =>
    match st.stack with
    | [] => st
    | t :: rest =>
      expandLoop src cfg ops fuel (stepTuple src cfg ops t rest st.imap st.omap st.arcs)

/-- The initial loop state: the pass-through scan's maps and arcs, and a
stack seeded with `(q, q, One, [], [])` for every word-start state `q`. -/
def expandInit {W : Type} (src : Wfst W) (cfg : Config) (ops : WeightOps W)
    (imap0 omap0 : Interner) : LoopSt W :=
  let p2 := phase2 src cfg imap0 omap0
  ⟨(p2.wordStarts.map (fun s => ⟨s, s, ops.one, [], []⟩)).reverse,
   p2.imap, p2.omap, p2.arcs⟩

/-- The whole `ExpandFst` computation before the final `Connect`. -/
def expandRun {W : Type} [DecidableEq W] (src : Wfst W) (cfg : Config)
    (ops : WeightOps W) (fuel : Nat) (imap0 omap0 : Interner) : LoopSt W :=
  expandLoop src cfg ops fuel (expandInit src cfg ops imap0 omap0)

/-- The output FST: a start state, the surviving states, the per-state final
weights (indexed by original state id), and the arcs. -/
structure DestFst (W : Type) where
  start : Nat
  states : List Nat
  finals : List W
  arcs : List (EArc W)
  deriving DecidableEq

/-- The output FST of `ExpandFst` before the final `Connect`: one state per
source state carrying the same final weight, the source's start state, and
the arcs accumulated by the scan and the search. -/
def destOfRun {W : Type} (ops : WeightOps W) (src : Wfst W) (st : LoopSt W) :
    DestFst W :=
  ⟨src.start, List.range src.numStates,
   (List.range src.numStates).map (fun s => finalOf ops src s), st.arcs⟩

/-- One forward-reachability saturation pass over the arc list. -/
def reachStep {W : Type} (arcs : List (EArc W)) (r : List Nat) : List Nat :=
  arcs.foldl (fun r a => if a.src ∈ r ∧ a.dst ∉ r then r ++ [a.dst] else r) r

/-- One backward-reachability saturation pass over the arc list. -/
def coreachStep {W : Type} (arcs : List (EArc W)) (r : List Nat) : List Nat :=
  arcs.foldl (fun r a => if a.dst ∈ r ∧ a.src ∉ r then r ++ [a.src] else r) r

/-- States reachable from the start state of the output FST. -/
def accessibleStates {W : Type} (d : DestFst W) : List Nat :=
  (reachStep d.arcs)^[d.finals.length] [d.start]

/-- States from which a final state of the output FST is reachable. -/
def coaccessibleStates {W : Type} [DecidableEq W] (ops : WeightOps W)
    (d : DestFst W) : List Nat :=
  (coreachStep d.arcs)^[d.finals.length]
    ((List.range d.finals.length).filter (fun s => d.finals.getD s ops.zero ≠ ops.zero))

/-- Modelled from the spec: the external Trim collaborator (`Connect` in the
code is supplied by the FST library, not by this repository).  Per §4.1/§6
and the glossary it removes the states that are not reachable from the start
state or cannot reach a final state, together with their arcs. -/
def trim {W : Type} [DecidableEq W] (ops : WeightOps W) (d : DestFst W) :
    DestFst W :=
  let acc := accessibleStates d
  let coa := coaccessibleStates ops d
  ⟨d.start,
   d.states.filter (fun s => s ∈ acc ∧ s ∈ coa),
   d.finals,
   d.arcs.filter (fun e => (e.src ∈ acc ∧ e.src ∈ coa) ∧ (e.dst ∈ acc ∧ e.dst ∈ coa))⟩

/-- The complete `ExpandFst` call: run the scan and the bounded search, build
the output FST, and trim it.  Returns the trimmed FST and the two final
interner states. -/
def expandFst {W : Type} [DecidableEq W] (src : Wfst W) (cfg : Config)
    (ops : WeightOps W) (fuel : Nat) (imap0 omap0 : Interner) :
    DestFst W × Interner × Interner :=
  let st := expandRun src cfg ops fuel imap0 omap0
  (trim ops (destOfRun ops src st), st.imap, st.omap)

/-! ### The symbol table -/

/-- The name given to an interned label sequence: the labels rendered in
decimal joined by `_`, and the literal `"0"` for the empty sequence. -/
def seqName (s : List Nat) : String :=
  if s.isEmpty then "0"
  else String.intercalate "_" (s.map (fun c => Nat.repr c))

/-- Insertion into a list of `(id, name)` pairs sorted by id. -/
def insertById (p : Nat × String) : List (Nat × String) → List (Nat × String)
  | [] => [p]
  | q :: r => if p.1 ≤ q.1 then p :: q :: r else q :: insertById p r

/-- `MapToSymbolsTable`: render every interned sequence, then sort the
`(id, name)` pairs by id. -/
def mapToSymbolsTable (m : Interner) : List (Nat × String) :=
  (m.map (fun kv => (kv.2, seqName kv.1))).foldl (fun acc p => insertById p acc) []

/-! ### Delimiter parsing in `main`

`main` reads whitespace-separated labels from the first positional argument
and aborts with `KALDI_ERR` upon the first label equal to 0 (epsilon); the
exception propagates out of `main` before any lattice is read.  We model the
token stream as the list of parsed labels. -/

/-- The delimiter-parsing loop of `main`: inserts each token into the set,
failing fatally at the first epsilon token. -/
def parseDelimiterSymbols : List Nat → Except String (List Nat)
  | [] => Except.ok []
  | t :: r =>
    if t = 0 then Except.error "Epsilon (0) cannot be a delimiter symbol!"
    else
      match parseDelimiterSymbols r with
      | Except.ok l => Except.ok (t :: l)
      | Except.error e => Except.error e

/-- The driver pipeline of `main` after option parsing: parse the delimiter
set, and only on success read and expand the lattices (each with a cleared
interner, as in the per-lattice symbol-table mode).  A parse failure
produces no expansion and no output. -/
def mainModel {W : Type} [DecidableEq W] (ops : WeightOps W) (toks : List Nat)
    (mi : Bool) (maxLength fuel : Nat) (lats : List (Wfst W)) :
    Except String (List (DestFst W × Interner × Interner)) :=
  match parseDelimiterSymbols toks with
  | Except.error e => Except.error e
  | Except.ok delim =>
    Except.ok (lats.map (fun lat => expandFst lat ⟨mi, delim, maxLength⟩ ops fuel [] []))

/-! ### Concrete weights for worked examples

The free monoid-with-zero over arc identifiers: `times` concatenates,
`one` is the empty word, `zero` is `none`.  It records the exact order in
which `Times` combined the arc weights, making weight claims observable. -/

/-- Weight operations of the free monoid-with-zero over `List Nat`. -/
def freeOps : WeightOps (Option (List Nat)) :=
  ⟨some [], none,
   fun a b =>
     match a, b with
     | some x, some y => some (x ++ y)
     | _, _ => none⟩

/-! ### Paths of the source FST -/

/-- `IsPath f q p r`: the arc list `p` is a path of `f` from state `q` to
state `r` (each arc taken from the arc list of the state reached so far). -/
def IsPath {W : Type} (f : Wfst W) : Nat → List (Arc W) → Nat → Prop
  | q, [], r => q = r
  | q, a :: p, r => a ∈ arcsOf f q ∧ IsPath f a.nextstate p r

/-- The weight of a path: `combine` of the arc weights in path order, seeded
with `one()`. -/
def pathWeight {W : Type} (ops : WeightOps W) (p : List (Arc W)) : W :=
  p.foldl (fun w a => ops.times w a.weight) ops.one

/-- The non-epsilon input labels collected along a path. -/
def pathILabels {W : Type} (p : List (Arc W)) : List Nat :=
  p.flatMap (fun a => if a.ilabel ≠ 0 then [a.ilabel] else [])

/-- The non-epsilon output labels collected along a path. -/
def pathOLabels {W : Type} (p : List (Arc W)) : List Nat :=
  p.flatMap (fun a => if a.olabel ≠ 0 then [a.olabel] else [])

/-! ### Basic interner lemmas -/

theorem internLookup_append_of_none {m : Interner} {s : List Nat}
    (h : internLookup m s = none) (l : Interner) :
    internLookup (m ++ l) s = internLookup l s := by
  induction m with
  | nil => rfl
  | cons kv r ih =>
    by_cases hk : kv.1 = s
    · simp [internLookup, hk] at h
    · simp only [internLookup, hk, if_false] at h
      simpa [internLookup, hk] using ih h

theorem internLookup_append_of_some {m : Interner} {s : List Nat} {v : Nat}
    (h : internLookup m s = some v) (l : Interner) :
    internLookup (m ++ l) s = some v := by
  induction m with
  | nil => simp [internLookup] at h
  | cons kv r ih =>
    by_cases hk : kv.1 = s
    · simp only [internLookup, hk, if_true] at h
      simp [internLookup, hk, h]
    · simp only [internLookup, hk, if_false] at h
      simpa [internLookup, hk] using ih h

theorem internLookup_eq_none_iff {m : Interner} {s : List Nat} :
    internLookup m s = none ↔ s ∉ m.map Prod.fst := by
  induction m with
  | nil => simp [internLookup]
  | cons kv r ih =>
    by_cases hk : kv.1 = s
    · simp [internLookup, hk]
    · simp [internLookup, hk, ih, Ne.symm hk]

/-- Interning a sequence that is already present returns the stored id and
leaves the map unchanged. -/
theorem intern_of_lookup_some {m : Interner} {s : List Nat} {v : Nat}
    (h : internLookup m s = some v) : intern m s = (v, m) := by
  simp [intern, internInsertKV, h]

/-- Interning a fresh sequence assigns the next unused id `m.length` and
appends the pair. -/
theorem intern_of_lookup_none {m : Interner} {s : List Nat}
    (h : internLookup m s = none) :
    intern m s = (m.length, m ++ [(s, m.length)]) := by
  simp [intern, internInsertKV, h, internSize]

/-- After interning `s`, looking `s` up finds exactly the returned id. -/
theorem internLookup_intern_self (m : Interner) (s : List Nat) :
    internLookup (intern m s).2 s = some (intern m s).1 := by
  cases h : internLookup m s with
  | some v => simp [intern_of_lookup_some h, h]
  | none =>
    rw [intern_of_lookup_none h]
    simp [internLookup_append_of_none h, internLookup]

/-- Interning never changes an id that is already assigned. -/
theorem internLookup_intern_mono {m : Interner} {s : List Nat} {v : Nat}
    (h : internLookup m s = some v) (k : List Nat) :
    internLookup (intern m k).2 s = some v := by
  cases hk : internLookup m k with
  | some v0 => simpa [intern_of_lookup_some hk] using h
  | none =>
    rw [intern_of_lookup_none hk]
    exact internLookup_append_of_some h _

/-- The reserved-epsilon insertion never changes an id that is assigned. -/
theorem internLookup_reserveEpsilon_mono {m : Interner} {s : List Nat} {v : Nat}
    (h : internLookup m s = some v) :
    internLookup (reserveEpsilon m) s = some v := by
  unfold reserveEpsilon internInsertKV
  cases hk : internLookup m [] with
  | some v0 => simpa using h
  | none => exact internLookup_append_of_some h _

/-- Well-formedness of an interner state reachable from reset: the ids are
exactly `0, 1, 2, …` in insertion order, the keys are distinct, and the head
entry is the reserved empty sequence with id 0. -/
def InternWF (m : Interner) : Prop :=
  m.map Prod.snd = List.range m.length ∧ (m.map Prod.fst).Nodup ∧
    m.head? = some ([], 0)

theorem internReset_WF : InternWF internReset := by
  refine ⟨?_, ?_, rfl⟩ <;> decide

theorem InternWF.intern {m : Interner} (h : InternWF m) (s : List Nat) :
    InternWF (intern m s).2 := by
  obtain ⟨hsnd, hfst, hhead⟩ := h
  cases hl : internLookup m s with
  | some v => simpa [intern_of_lookup_some hl] using ⟨hsnd, hfst, hhead⟩
  | none =>
    rw [intern_of_lookup_none hl]
    refine ⟨?_, ?_, ?_⟩
    · simp [hsnd, List.range_succ]
    · have hs : s ∉ m.map Prod.fst := internLookup_eq_none_iff.mp hl
      simp [List.nodup_append, hfst, hs]
    · cases m with
      | nil => simp at hhead
      | cons kv r => simpa using hhead

theorem InternWF.internMany {m : Interner} (h : InternWF m)
    (ss : List (List Nat)) : InternWF (LCW.internMany m ss) := by
  induction ss generalizing m with
  | nil => exact h
  | cons s r ih => exact ih (h.intern s)

/-- Replaying the keys of a well-formed tail `q` on top of its prefix `p`
reproduces `p ++ q` exactly. -/
theorem internMany_replay : ∀ (q p : Interner),
    (p ++ q).map Prod.snd = List.range (p ++ q).length →
    ((p ++ q).map Prod.fst).Nodup →
    internMany p (q.map Prod.fst) = p ++ q := by
  intro q
  induction q with
  | nil => intro p _ _; simp [internMany]
  | cons kv q' ih =>
    intro p hsnd hfst
    have hv : kv.2 = p.length := by
      have h1 := congrArg (fun l => l[p.length]?) hsnd
      have hlt : p.length < (p ++ kv :: q').length := by
        simp only [List.length_append, List.length_cons]
        omega
      simp only [List.getElem?_map, List.getElem?_append_right (Nat.le_refl _),
        Nat.sub_self, List.getElem?_range hlt] at h1
      simpa using h1
    have hk : internLookup p kv.1 = none := by
      rw [internLookup_eq_none_iff]
      rw [List.map_append] at hfst
      have hd := (List.nodup_append.mp hfst).2.2
      intro hmem
      exact hd hmem (by simp)
    have step : intern p kv.1 = (p.length, p ++ [(kv.1, p.length)]) :=
      intern_of_lookup_none hk
    have hkv : (kv.1, p.length) = kv := by
      cases kv with
      | mk a b => simp at hv; simp [hv]
    calc internMany p ((kv :: q').map Prod.fst)
        = internMany (intern p kv.1).2 (q'.map Prod.fst) := rfl
      _ = internMany (p ++ [kv]) (q'.map Prod.fst) := by rw [step, hkv]
      _ = (p ++ [kv]) ++ q' := by
          apply ih
          · simpa using hsnd
          · simpa using hfst
      _ = p ++ kv :: q' := by simp

/-! ### Claim theorems -/

/-- C6: for every `intern(seq)` call on a state reached from reset, a
previously interned sequence returns its existing id and leaves the map
unchanged (so interning is idempotent); a fresh sequence is assigned the
next unused id, hence ids are assigned in strict first-insertion order
starting from 0; the empty sequence always maps to 0; and after a reset,
re-interning the same sequences in the same first-seen order reproduces the
same id assignment. -/
theorem intern_contract (ss : List (List Nat)) (m : Interner)
    (hm : m = internMany internReset ss) :
    (∀ s v, internLookup m s = some v → intern m s = (v, m)) ∧
    (∀ s, internLookup m s = none →
      intern m s = (m.length, m ++ [(s, m.length)])) ∧
    (∀ s, (intern (intern m s).2 s).1 = (intern m s).1) ∧
    m.map Prod.snd = List.range m.length ∧
    internLookup m [] = some 0 ∧
    internMany internReset (m.map Prod.fst) = m := by
  have hwf : InternWF m := hm ▸ internReset_WF.internMany ss
  obtain ⟨hsnd, hfst, hhead⟩ := hwf
  have hm0 : ∃ r, m = ([], 0) :: r := by
    cases m with
    | nil => simp at hhead
    | cons kv r => exact ⟨r, by simpa using congrArg (fun o => o.getD kv) hhead⟩
  refine ⟨fun s v h => intern_of_lookup_some h,
          fun s h => intern_of_lookup_none h,
          fun s => ?_, hsnd, ?_, ?_⟩
  · have h := internLookup_intern_self m s
    rw [intern_of_lookup_some h]
  · obtain ⟨r, hr⟩ := hm0
    simp [hr, internLookup]
  · obtain ⟨r, hr⟩ := hm0
    have : internMany internReset (m.map Prod.fst) =
        internMany (intern internReset []).2 (r.map Prod.fst) := by
      rw [hr]; rfl
    rw [this]
    have hres : (intern internReset []).2 = internReset := by decide
    rw [hres]
    have := internMany_replay r ([([], 0)])
    rw [hr]
    refine this ?_ ?_
    · simpa [hr] using hsnd
    · simpa [hr] using hfst

/-- Witness for `intern_contract` at the concrete call sequence
`[[1,2], [3], [1,2]]` from reset. -/
theorem intern_contract_witness :
    internMany internReset [[1, 2], [3], [1, 2]] =
      [([], 0), ([1, 2], 1), ([3], 2)] ∧
    internLookup (internMany internReset [[1, 2], [3], [1, 2]]) [] = some 0 ∧
    internMany internReset
        ((internMany internReset [[1, 2], [3], [1, 2]]).map Prod.fst) =
      internMany internReset [[1, 2], [3], [1, 2]] := by
  have h := intern_contract [[1, 2], [3], [1, 2]]
    (internMany internReset [[1, 2], [3], [1, 2]]) rfl
  exact ⟨by decide, h.2.2.2.2.1, h.2.2.2.2.2⟩

/-- C10: if the delimiter argument contains the epsilon label 0, the driver
fails fatally during parsing, producing no expansion output at all; for any
token list without 0 the parse succeeds and every lattice is expanded. -/
theorem delimiter_epsilon_fatal {W : Type} [DecidableEq W] (ops : WeightOps W)
    (toks : List Nat) (mi : Bool) (maxLength fuel : Nat) (lats : List (Wfst W)) :
    (0 ∈ toks → mainModel ops toks mi maxLength fuel lats =
      Except.error "Epsilon (0) cannot be a delimiter symbol!") ∧
    (0 ∉ toks → parseDelimiterSymbols toks = Except.ok toks ∧
      mainModel ops toks mi maxLength fuel lats =
        Except.ok (lats.map (fun lat =>
          expandFst lat ⟨mi, toks, maxLength⟩ ops fuel []  []))) := by
  constructor
  · intro h0
    have hp : parseDelimiterSymbols toks =
        Except.error "Epsilon (0) cannot be a delimiter symbol!" := by
      induction toks with
      | nil => simp at h0
      | cons t r ih =>
        by_cases ht : t = 0
        · simp [parseDelimiterSymbols, ht]
        · have : (0 : Nat) ∈ r := by
            rcases List.mem_cons.mp h0 with h | h
            · exact absurd h.symm ht
            · exact h
          simp [parseDelimiterSymbols, ht, ih this]
    simp [mainModel, hp]
  · intro h0
    have hp : parseDelimiterSymbols toks = Except.ok toks := by
      induction toks with
      | nil => rfl
      | cons t r ih =>
        have ht : t ≠ 0 := fun h => h0 (by simp [h])
        have hr : (0 : Nat) ∉ r := fun h => h0 (by simp [h])
        simp [parseDelimiterSymbols, ht, ih hr]
    exact ⟨hp, by simp [mainModel, hp]⟩

/-- Witness for `delimiter_epsilon_fatal`: the token list `[3, 0]` fails
fatally and the token list `[3, 4]` parses and expands. -/
theorem delimiter_epsilon_fatal_witness :
    mainModel freeOps [3, 0] false 10 5 [] =
      Except.error "Epsilon (0) cannot be a delimiter symbol!" ∧
    parseDelimiterSymbols [3, 4] = Except.ok [3, 4] := by
  refine ⟨(delimiter_epsilon_fatal freeOps [3, 0] false 10 5 []).1 (by decide), ?_⟩
  exact ((delimiter_epsilon_fatal freeOps [3, 4] false 10 5 []).2 (by decide)).1

/-! ### The worked example (C2) -/

/-- The source automaton of the worked example: states `0 (start), 1, 2,
3 (final, weight one)`, arcs `0→1` (label 1), `1→2` (label 2), `2→3`
(label 3), over the free weight monoid, with arc weights `w1, w2, w3`
recorded as `some [1]`, `some [2]`, `some [3]`. -/
def exSrc : Wfst (Option (List Nat)) :=
  ⟨0, [none, none, none, some []],
   [[⟨1, 1, some [1], 1⟩], [⟨2, 2, some [2], 2⟩], [⟨3, 3, some [3], 3⟩], []]⟩

/-- The configuration of the worked example: `matchSide = Output`,
`delimiterLabels = {3}`, `maxLength = 10`. -/
def exCfg : Config := ⟨false, [3], 10⟩

/-- C2: on the worked example, `Expand` (with trim) keeps exactly the states
`{0 (start), 2, 3 (final, weight one)}`, produces the arc `0→2` labeled with
the id interned for `[1,2]` and weight `combine(w1,w2)`, and the arc `2→3`
labeled with the id interned for `[3]` and weight `w3`; the symbol table
names id 0 `"0"`, the id of `[1,2]` (= 2) `"1_2"` and the id of `[3]`
(= 1) `"3"`. -/
theorem expand_worked_example :
    (expandFst exSrc exCfg freeOps 100 [] []).1.states = [0, 2, 3] ∧
    (expandFst exSrc exCfg freeOps 100 [] []).1.start = 0 ∧
    (expandFst exSrc exCfg freeOps 100 [] []).1.finals.getD 3 freeOps.zero =
      freeOps.one ∧
    internLookup (expandFst exSrc exCfg freeOps 100 [] []).2.1 [1, 2] = some 2 ∧
    internLookup (expandFst exSrc exCfg freeOps 100 [] []).2.1 [3] = some 1 ∧
    (⟨0, 2, 2, freeOps.times (some [1]) (some [2]), 2⟩ : EArc (Option (List Nat))) ∈
      (expandFst exSrc exCfg freeOps 100 [] []).1.arcs ∧
    (⟨2, 1, 1, some [3], 3⟩ : EArc (Option (List Nat))) ∈
      (expandFst exSrc exCfg freeOps 100 [] []).1.arcs ∧
    (expandFst exSrc exCfg freeOps 100 [] []).2.1 =
      (expandFst exSrc exCfg freeOps 100 [] []).2.2 ∧
    mapToSymbolsTable (expandFst exSrc exCfg freeOps 100 [] []).2.1 =
      [(0, "0"), (1, "3"), (2, "1_2")] := by
  decide

/-! ### The pass-through scan: lemmas and claim C5 -/

/-- The `(state, arc)` pairs of the source whose match-side label is a
delimiter, in iteration order. -/
def delimArcs {W : Type} (f : Wfst W) (mi : Bool) (delim : List Nat) :
    List (Nat × Arc W) :=
  (stateArcPairs f).filter (fun sa => matchLabel mi sa.2 ∈ delim)

theorem mem_setInsert_of_mem {l : List Nat} {x : Nat} (y : Nat) (h : x ∈ l) :
    x ∈ setInsert l y := by
  unfold setInsert
  by_cases hy : y ∈ l <;> simp [hy, h]

theorem mem_setInsert_self (l : List Nat) (y : Nat) : y ∈ setInsert l y := by
  unfold setInsert
  by_cases hy : y ∈ l <;> simp [hy]

theorem phase2_arcs_proj {W : Type} (mi : Bool) (delim : List Nat) :
    ∀ (l : List (Nat × Arc W)) (st : Phase2St W),
    (l.foldl (passArcStep mi delim) st).arcs.map (fun e => (e.src, e.dst, e.weight)) =
      st.arcs.map (fun e => (e.src, e.dst, e.weight)) ++
        (l.filter (fun sa => matchLabel mi sa.2 ∈ delim)).map
          (fun sa => (sa.1, sa.2.nextstate, sa.2.weight)) := by
  intro l
  induction l with
  | nil => intro st; simp
  | cons sa l ih =>
    intro st
    by_cases h : matchLabel mi sa.2 ∈ delim
    · rw [List.foldl_cons, List.filter_cons_of_pos (by simpa using h), ih]
      simp [passArcStep, h]
    · rw [List.foldl_cons, List.filter_cons_of_neg (by simpa using h), ih]
      simp [passArcStep, h]

theorem phase2_labels_aux {W : Type} (mi : Bool) (delim : List Nat) :
    ∀ (l : List (Nat × Arc W)) (st : Phase2St W) (done : List (Nat × Arc W)),
      st.arcs.length = done.length →
      (∀ pr ∈ st.arcs.zip done,
        internLookup st.imap (ilSeq pr.2.2) = some pr.1.ilabel ∧
        internLookup st.omap (olSeq pr.2.2) = some pr.1.olabel) →
      ∀ pr ∈ (l.foldl (passArcStep mi delim) st).arcs.zip
          (done ++ l.filter (fun sa => matchLabel mi sa.2 ∈ delim)),
        internLookup (l.foldl (passArcStep mi delim) st).imap (ilSeq pr.2.2) =
          some pr.1.ilabel ∧
        internLookup (l.foldl (passArcStep mi delim) st).omap (olSeq pr.2.2) =
          some pr.1.olabel := by
  intro l
  induction l with
  | nil => intro st done _ hinv; simpa using hinv
  | cons sa l ih =>
    intro st done hlen hinv
    by_cases h : matchLabel mi sa.2 ∈ delim
    · rw [List.foldl_cons, List.filter_cons_of_pos (by simpa using h)]
      have hstep : passArcStep mi delim st sa =
          ⟨(intern st.imap (ilSeq sa.2)).2, (intern st.omap (olSeq sa.2)).2,
           st.arcs ++ [⟨sa.1, (intern st.imap (ilSeq sa.2)).1,
             (intern st.omap (olSeq sa.2)).1, sa.2.weight, sa.2.nextstate⟩],
           setInsert st.wordStarts sa.2.nextstate⟩ := by
        simp [passArcStep, h]
      rw [show done ++ sa :: List.filter (fun sa => decide (matchLabel mi sa.2 ∈ delim)) l =
            (done ++ [sa]) ++ List.filter (fun sa => decide (matchLabel mi sa.2 ∈ delim)) l by
          simp]
      apply ih (passArcStep mi delim st sa) (done ++ [sa])
      · rw [hstep]; simp [hlen]
      · rw [hstep]
        intro pr hpr
        rw [List.zip_append (by simpa using hlen)] at hpr
        rcases List.mem_append.mp hpr with hold | hnew
        · rcases hinv pr hold with ⟨hi, ho⟩
          exact ⟨internLookup_intern_mono hi _, internLookup_intern_mono ho _⟩
        · simp only [List.zip_cons_cons, List.zip_nil_right, List.mem_singleton] at hnew
          subst hnew
          exact ⟨internLookup_intern_self _ _, internLookup_intern_self _ _⟩
    · rw [List.foldl_cons, List.filter_cons_of_neg (by simpa using h)]
      have hstep : passArcStep mi delim st sa = st := by simp [passArcStep, h]
      rw [hstep]
      exact ih st done hlen hinv

theorem phase2_wordStarts_aux {W : Type} (mi : Bool) (delim : List Nat) :
    ∀ (l : List (Nat × Arc W)) (st : Phase2St W),
      (∀ x ∈ st.wordStarts, x ∈ (l.foldl (passArcStep mi delim) st).wordStarts) ∧
      (∀ sa ∈ l, matchLabel mi sa.2 ∈ delim →
        sa.2.nextstate ∈ (l.foldl (passArcStep mi delim) st).wordStarts) := by
  intro l
  induction l with
  | nil => intro st; exact ⟨fun x hx => hx, fun sa hsa => absurd hsa (by simp)⟩
  | cons sa l ih =>
    intro st
    constructor
    · intro x hx
      simp only [List.foldl_cons]
      apply (ih (passArcStep mi delim st sa)).1
      unfold passArcStep
      by_cases h : matchLabel mi sa.2 ∈ delim
      · simpa [h] using mem_setInsert_of_mem sa.2.nextstate hx
      · simpa [h] using hx
    · intro sb hsb hdelim
      simp only [List.foldl_cons]
      rcases List.mem_cons.mp hsb with hb | hb
      · subst hb
        apply (ih (passArcStep mi delim st sb)).1
        simpa [passArcStep, hdelim] using mem_setInsert_self st.wordStarts sb.2.nextstate
      · exact (ih (passArcStep mi delim st sa)).2 sb hb hdelim

/-- C5: every source arc whose match-side label is a delimiter gives rise to
exactly one pass-through arc of the output FST, in order, between the same
endpoints and with the same weight; its input (resp. output) label is the id
interned for the one-element sequence `[arc.ilabel]` (empty when the label
is epsilon); the destination of every such arc is marked as a word-start
state, and so is the source's start state. -/
theorem delimiter_pass_through {W : Type} (src : Wfst W) (cfg : Config)
    (imap0 omap0 : Interner) :
    (phase2 src cfg imap0 omap0).arcs.map (fun e => (e.src, e.dst, e.weight)) =
      (delimArcs src cfg.matchInput cfg.delim).map
        (fun sa => (sa.1, sa.2.nextstate, sa.2.weight)) ∧
    (∀ pr ∈ (phase2 src cfg imap0 omap0).arcs.zip
        (delimArcs src cfg.matchInput cfg.delim),
      internLookup (phase2 src cfg imap0 omap0).imap (ilSeq pr.2.2) =
        some pr.1.ilabel ∧
      internLookup (phase2 src cfg imap0 omap0).omap (olSeq pr.2.2) =
        some pr.1.olabel) ∧
    (∀ sa ∈ delimArcs src cfg.matchInput cfg.delim,
      sa.2.nextstate ∈ (phase2 src cfg imap0 omap0).wordStarts) ∧
    src.start ∈ (phase2 src cfg imap0 omap0).wordStarts := by
  refine ⟨?_, ?_, ?_, ?_⟩
  · simpa [delimArcs] using
      phase2_arcs_proj cfg.matchInput cfg.delim (stateArcPairs src)
        ⟨reserveEpsilon imap0, reserveEpsilon omap0, [], [src.start]⟩
  · have h := phase2_labels_aux cfg.matchInput cfg.delim (stateArcPairs src)
      ⟨reserveEpsilon imap0, reserveEpsilon omap0, [], [src.start]⟩ []
      rfl (by intro pr hpr; simp at hpr)
    simpa [delimArcs] using h
  · intro sa hsa
    rcases List.mem_filter.mp hsa with ⟨hmem, hdec⟩
    exact (phase2_wordStarts_aux cfg.matchInput cfg.delim (stateArcPairs src)
      ⟨reserveEpsilon imap0, reserveEpsilon omap0, [], [src.start]⟩).2 sa hmem
      (by simpa using hdec)
  · exact (phase2_wordStarts_aux cfg.matchInput cfg.delim (stateArcPairs src)
      ⟨reserveEpsilon imap0, reserveEpsilon omap0, [], [src.start]⟩).1 src.start
      (by simp)

/-- Witness for `delimiter_pass_through` on the worked example. -/
theorem delimiter_pass_through_witness :
    (phase2 exSrc exCfg [] []).arcs.map (fun e => (e.src, e.dst, e.weight)) =
      (delimArcs exSrc false [3]).map (fun sa => (sa.1, sa.2.nextstate, sa.2.weight)) ∧
    3 ∈ (phase2 exSrc exCfg [] []).wordStarts ∧
    0 ∈ (phase2 exSrc exCfg [] []).wordStarts := by
  have h := delimiter_pass_through exSrc exCfg [] []
  exact ⟨h.1, h.2.2.1 (2, ⟨3, 3, some [3], 3⟩) (by decide), h.2.2.2⟩

/-! ### States and final weights: claim C8 -/

/-- C8: before the trim the output FST has exactly one state per source
state, its final weights agree with the source's, and its start state is
the source's; the trim only filters states, so the trimmed output has at
most as many states as the source. -/
theorem states_copied_and_trim_bound {W : Type} [DecidableEq W] (src : Wfst W)
    (cfg : Config) (ops : WeightOps W) (fuel : Nat) (imap0 omap0 : Interner) :
    (destOfRun ops src (expandRun src cfg ops fuel imap0 omap0)).states =
      List.range src.numStates ∧
    (destOfRun ops src (expandRun src cfg ops fuel imap0 omap0)).finals.length =
      src.numStates ∧
    (∀ s, s < src.numStates →
      (destOfRun ops src (expandRun src cfg ops fuel imap0 omap0)).finals.getD
          s ops.zero = finalOf ops src s) ∧
    (destOfRun ops src (expandRun src cfg ops fuel imap0 omap0)).start =
      src.start ∧
    (expandFst src cfg ops fuel imap0 omap0).1.states.length ≤ src.numStates := by
  refine ⟨rfl, by simp [destOfRun], ?_, rfl, ?_⟩
  · intro s hs
    simp [destOfRun, List.getD_eq_getElem?_getD, List.getElem?_range hs]
  · show ((trim ops (destOfRun ops src (expandRun src cfg ops fuel imap0 omap0))).states).length ≤ _
    unfold trim
    simp only [destOfRun]
    calc ((List.range src.numStates).filter _).length
        ≤ (List.range src.numStates).length := List.length_filter_le _ _
      _ = src.numStates := List.length_range _

/-- Witness for `states_copied_and_trim_bound` on the worked example. -/
theorem states_copied_and_trim_bound_witness :
    (destOfRun freeOps exSrc (expandRun exSrc exCfg freeOps 100 [] [])).finals.getD
        3 freeOps.zero = finalOf freeOps exSrc 3 ∧
    (expandFst exSrc exCfg freeOps 100 [] []).1.states.length ≤ exSrc.numStates := by
  have h := states_copied_and_trim_bound exSrc exCfg freeOps 100 [] []
  exact ⟨h.2.2.1 3 (by decide), h.2.2.2.2⟩

/-! ### The arc scan of a popped tuple -/

/-- The treatment of one scanned arc as an optional stack extension: a
delimiter arc never extends the path, a non-delimiter arc extends it exactly
when the new match-side length stays within `max_length`. -/
def extOf {W : Type} (cfg : Config) (ops : WeightOps W) (t : SState W)
    (a : Arc W) : Option (SState W) :=
  if matchLabel cfg.matchInput a ∈ cfg.delim then none else pushOf cfg ops t a

theorem scanArcs_eq {W : Type} (src : Wfst W) (cfg : Config) (ops : WeightOps W)
    (t : SState W) :
    scanArcs src cfg ops t =
      ((arcsOf src t.q1).filterMap (extOf cfg ops t),
       (arcsOf src t.q1).any (fun a =>
         decide (matchLabel cfg.matchInput a ∈ cfg.delim))) := by
  suffices h : ∀ (l : List (Arc W)) (acc : List (SState W) × Bool),
      l.foldl (arcBody cfg ops t) acc =
        (acc.1 ++ l.filterMap (extOf cfg ops t),
         acc.2 || l.any (fun a => decide (matchLabel cfg.matchInput a ∈ cfg.delim))) by
    unfold scanArcs
    simpa using h (arcsOf src t.q1) ([], false)
  intro l
  induction l with
  | nil => intro acc; simp
  | cons a l ih =>
    intro acc
    rw [List.foldl_cons, ih]
    by_cases h : matchLabel cfg.matchInput a ∈ cfg.delim
    · simp [arcBody, extOf, h, List.filterMap_cons]
    · cases hp : pushOf cfg ops t a with
      | some t1 => simp [arcBody, extOf, h, hp, List.filterMap_cons]
      | none => simp [arcBody, extOf, h, hp, List.filterMap_cons]

theorem stepTuple_arcs {W : Type} [DecidableEq W] (src : Wfst W) (cfg : Config)
    (ops : WeightOps W) (t : SState W) (rest : List (SState W))
    (imap omap : Interner) (acc : List (EArc W)) :
    (stepTuple src cfg ops t rest imap omap acc).arcs =
      acc ++ (if t.q0 ≠ t.q1 ∧
          (((arcsOf src t.q1).any (fun a =>
              decide (matchLabel cfg.matchInput a ∈ cfg.delim))) = true ∨
            finalOf ops src t.q1 ≠ ops.zero)
        then [⟨t.q0, (intern imap t.ilbls).1, (intern omap t.olbls).1, t.w, t.q1⟩]
        else []) := by
  have hsnd : (scanArcs src cfg ops t).2 =
      (arcsOf src t.q1).any (fun a =>
        decide (matchLabel cfg.matchInput a ∈ cfg.delim)) := by
    rw [scanArcs_eq]
  unfold stepTuple
  rw [hsnd]
  by_cases h : t.q0 ≠ t.q1 ∧
      (((arcsOf src t.q1).any (fun a =>
          decide (matchLabel cfg.matchInput a ∈ cfg.delim))) = true ∨
        finalOf ops src t.q1 ≠ ops.zero)
  · simp only [if_pos h]
  · simp only [if_neg h]
    simp

theorem stepTuple_stack {W : Type} [DecidableEq W] (src : Wfst W) (cfg : Config)
    (ops : WeightOps W) (t : SState W) (rest : List (SState W))
    (imap omap : Interner) (acc : List (EArc W)) :
    (stepTuple src cfg ops t rest imap omap acc).stack =
      ((arcsOf src t.q1).filterMap (extOf cfg ops t)).reverse ++ rest := by
  have hfst : (scanArcs src cfg ops t).1 =
      (arcsOf src t.q1).filterMap (extOf cfg ops t) := by
    rw [scanArcs_eq]
  unfold stepTuple
  by_cases h : t.q0 ≠ t.q1 ∧
      ((scanArcs src cfg ops t).2 = true ∨ finalOf ops src t.q1 ≠ ops.zero)
  · simp only [if_pos h, hfst]
  · simp only [if_neg h, hfst]

theorem stepTuple_imap_lookup {W : Type} [DecidableEq W] (src : Wfst W)
    (cfg : Config) (ops : WeightOps W) (t : SState W) (rest : List (SState W))
    (imap omap : Interner) (acc : List (EArc W)) {s : List Nat} {v : Nat}
    (h : internLookup imap s = some v) :
    internLookup (stepTuple src cfg ops t rest imap omap acc).imap s = some v := by
  unfold stepTuple
  by_cases hc : t.q0 ≠ t.q1 ∧
      ((scanArcs src cfg ops t).2 = true ∨ finalOf ops src t.q1 ≠ ops.zero)
  · rw [if_pos hc]
    exact internLookup_intern_mono h _
  · rw [if_neg hc]
    exact h

theorem stepTuple_omap_lookup {W : Type} [DecidableEq W] (src : Wfst W)
    (cfg : Config) (ops : WeightOps W) (t : SState W) (rest : List (SState W))
    (imap omap : Interner) (acc : List (EArc W)) {s : List Nat} {v : Nat}
    (h : internLookup omap s = some v) :
    internLookup (stepTuple src cfg ops t rest imap omap acc).omap s = some v := by
  unfold stepTuple
  by_cases hc : t.q0 ≠ t.q1 ∧
      ((scanArcs src cfg ops t).2 = true ∨ finalOf ops src t.q1 ≠ ops.zero)
  · rw [if_pos hc]
    exact internLookup_intern_mono h _
  · rw [if_neg hc]
    exact h

theorem extOf_some {W : Type} {cfg : Config} {ops : WeightOps W} {t t' : SState W}
    {a : Arc W} (h : extOf cfg ops t a = some t') :
    t' = ⟨t.q0, a.nextstate, ops.times t.w a.weight,
          t.ilbls ++ ilSeq a, t.olbls ++ olSeq a⟩ ∧
    matchLabel cfg.matchInput a ∉ cfg.delim ∧
    matchLen cfg.matchInput t +
        (if matchLabel cfg.matchInput a = 0 then 0 else 1) ≤ cfg.maxLength := by
  unfold extOf at h
  by_cases hd : matchLabel cfg.matchInput a ∈ cfg.delim
  · simp [hd] at h
  · rw [if_neg hd] at h
    unfold pushOf at h
    by_cases hl : matchLen cfg.matchInput t +
        (if matchLabel cfg.matchInput a = 0 then 0 else 1) ≤ cfg.maxLength
    · rw [if_pos hl] at h
      refine ⟨?_, hd, hl⟩
      cases h
      simp [ilSeq, olSeq]
    · rw [if_neg hl] at h
      cases h

/-- The new match-side length of an extension tuple. -/
theorem matchLen_extOf {W : Type} {cfg : Config} {ops : WeightOps W}
    {t t' : SState W} {a : Arc W} (h : extOf cfg ops t a = some t') :
    matchLen cfg.matchInput t' =
      matchLen cfg.matchInput t +
        (if matchLabel cfg.matchInput a = 0 then 0 else 1) ∧
    matchLen cfg.matchInput t' ≤ cfg.maxLength := by
  obtain ⟨ht', _, hl⟩ := extOf_some h
  subst ht'
  have hlen : matchLen cfg.matchInput
      (⟨t.q0, a.nextstate, ops.times t.w a.weight,
        t.ilbls ++ ilSeq a, t.olbls ++ olSeq a⟩ : SState W) =
      matchLen cfg.matchInput t +
        (if matchLabel cfg.matchInput a = 0 then 0 else 1) := by
    cases hmi : cfg.matchInput with
    | true =>
      simp only [matchLen, matchLabel, hmi, if_true, ilSeq, List.length_append]
      by_cases h0 : a.ilabel = 0 <;> simp [h0]
    | false =>
      simp only [matchLen, matchLabel, hmi, if_false, olSeq, List.length_append]
      by_cases h0 : a.olabel = 0 <;> simp [h0]
  exact ⟨hlen, hlen ▸ hl⟩

/-! ### The path invariant of the bounded search (claim C1) -/

theorem isPath_snoc {W : Type} (f : Wfst W) (a : Arc W) :
    ∀ (p : List (Arc W)) (q0 q1 : Nat),
      IsPath f q0 p q1 → a ∈ arcsOf f q1 → IsPath f q0 (p ++ [a]) a.nextstate := by
  intro p
  induction p with
  | nil =>
    intro q0 q1 hp ha
    have hq : q0 = q1 := hp
    subst hq
    exact ⟨ha, rfl⟩
  | cons b p ih =>
    intro q0 q1 hp ha
    have hp' : b ∈ arcsOf f q0 ∧ IsPath f b.nextstate p q1 := hp
    exact ⟨hp'.1, ih _ _ hp'.2 ha⟩

theorem pathWeight_snoc {W : Type} (ops : WeightOps W) (p : List (Arc W))
    (a : Arc W) : pathWeight ops (p ++ [a]) = ops.times (pathWeight ops p) a.weight := by
  simp [pathWeight, List.foldl_append]

theorem pathILabels_snoc {W : Type} (p : List (Arc W)) (a : Arc W) :
    pathILabels (p ++ [a]) = pathILabels p ++ ilSeq a := by
  simp [pathILabels, ilSeq]

theorem pathOLabels_snoc {W : Type} (p : List (Arc W)) (a : Arc W) :
    pathOLabels (p ++ [a]) = pathOLabels p ++ olSeq a := by
  simp [pathOLabels, olSeq]

/-- The search invariant: a stack tuple always records the accumulation of
some source path from its origin to its current state. -/
def PathInv {W : Type} (src : Wfst W) (ops : WeightOps W) (t : SState W) : Prop :=
  ∃ p, IsPath src t.q0 p t.q1 ∧ t.w = pathWeight ops p ∧
    t.ilbls = pathILabels p ∧ t.olbls = pathOLabels p

theorem pathInv_extOf {W : Type} {src : Wfst W} {cfg : Config}
    {ops : WeightOps W} {t t' : SState W} {a : Arc W}
    (ha : a ∈ arcsOf src t.q1) (hx : extOf cfg ops t a = some t')
    (ht : PathInv src ops t) : PathInv src ops t' := by
  obtain ⟨p, hp, hw, hi, ho⟩ := ht
  obtain ⟨ht', _, _⟩ := extOf_some hx
  subst ht'
  refine ⟨p ++ [a], isPath_snoc src a p t.q0 t.q1 hp ha, ?_, ?_, ?_⟩
  · simp [pathWeight_snoc, hw]
  · simp [pathILabels_snoc, hi]
  · simp [pathOLabels_snoc, ho]

theorem expandLoop_stack_path_inv {W : Type} [DecidableEq W] (src : Wfst W)
    (cfg : Config) (ops : WeightOps W) :
    ∀ (fuel : Nat) (st : LoopSt W),
      (∀ t ∈ st.stack, PathInv src ops t) →
      ∀ t ∈ (expandLoop src cfg ops fuel st).stack, PathInv src ops t := by
  intro fuel
  induction fuel with
  | zero => intro st h; exact h
  | succ f ih =>
    intro st h
    cases hs : st.stack with
    | nil =>
      intro t ht
      rw [expandLoop] at ht
      rw [hs] at ht
      exact h t (hs ▸ ht)
    | cons t0 rest =>
      rw [expandLoop, hs]
      apply ih
      intro t ht
      rw [stepTuple_stack] at ht
      rcases List.mem_append.mp ht with hl | hr
      · rw [List.mem_reverse] at hl
        obtain ⟨a, ha, hx⟩ := List.mem_filterMap.mp hl
        exact pathInv_extOf ha hx (h t0 (by simp [hs]))
      · exact h t (by simp [hs, hr])

/-- The initial stack tuples satisfy the path invariant (empty path). -/
theorem expandInit_path_inv {W : Type} (src : Wfst W) (cfg : Config)
    (ops : WeightOps W) (imap0 omap0 : Interner) :
    ∀ t ∈ (expandInit src cfg ops imap0 omap0).stack, PathInv src ops t := by
  intro t ht
  have : t ∈ (phase2 src cfg imap0 omap0).wordStarts.map
      (fun s => (⟨s, s, ops.one, [], []⟩ : SState W)) := by
    simpa [expandInit] using ht
  obtain ⟨s, _, hts⟩ := List.mem_map.mp this
  subst hts
  exact ⟨[], rfl, rfl, rfl, rfl⟩

/-- C1: processing a popped tuple `(q0, q1, w, ilbls, olbls)` emits exactly
one arc `q0 → q1` — with input label `intern(ilbls)`, output label
`intern(olbls)` and weight `w` — precisely when `q0 ≠ q1` and `q1` has an
outgoing delimiter arc or a non-zero final weight, and otherwise emits
nothing; moreover every tuple reachable on the search stack carries the
weight obtained by `combine`, seeded with `one()` and applied in source-path
order, over the arc weights of an underlying source path from `q0` to `q1`
(whose non-epsilon labels are exactly the accumulated sequences). -/
theorem search_step_emission {W : Type} [DecidableEq W] (src : Wfst W)
    (cfg : Config) (ops : WeightOps W) :
    (∀ (t : SState W) (rest : List (SState W)) (imap omap : Interner)
        (acc : List (EArc W)),
      (stepTuple src cfg ops t rest imap omap acc).arcs =
        acc ++ (if t.q0 ≠ t.q1 ∧
            (((arcsOf src t.q1).any (fun a =>
                decide (matchLabel cfg.matchInput a ∈ cfg.delim))) = true ∨
              finalOf ops src t.q1 ≠ ops.zero)
          then [⟨t.q0, (intern imap t.ilbls).1, (intern omap t.olbls).1, t.w, t.q1⟩]
          else [])) ∧
    (∀ (fuel : Nat) (imap0 omap0 : Interner) (t : SState W),
      t ∈ (expandRun src cfg ops fuel imap0 omap0).stack →
      ∃ p, IsPath src t.q0 p t.q1 ∧ t.w = pathWeight ops p ∧
        t.ilbls = pathILabels p ∧ t.olbls = pathOLabels p) := by
  constructor
  · exact stepTuple_arcs src cfg ops
  · intro fuel imap0 omap0 t ht
    exact expandLoop_stack_path_inv src cfg ops fuel _
      (expandInit_path_inv src cfg ops imap0 omap0) t ht

/-- Witness for `search_step_emission`: the tuple `(0, 1, w1, [1], [1])` is
reachable on the stack of the worked example, and its weight is the path
weight of the one-arc path `0 → 1`. -/
theorem search_step_emission_witness :
    ∃ p, IsPath exSrc 0 p 1 ∧ (some [1] : Option (List Nat)) = pathWeight freeOps p ∧
      [1] = pathILabels p ∧ [1] = pathOLabels p :=
  (search_step_emission exSrc exCfg freeOps).2 2 [] []
    ⟨0, 1, some [1], [1], [1]⟩ (by decide)

/-! ### maxLength = 0 and the epsilon pruning rule (claims C4 and C9) -/

theorem reserveEpsilon_lookup {m : Interner}
    (h : internLookup m [] = none ∨ internLookup m [] = some 0) :
    internLookup (reserveEpsilon m) [] = some 0 := by
  unfold reserveEpsilon internInsertKV
  rcases h with h | h
  · rw [h]
    show internLookup (m ++ [([], 0)]) [] = some 0
    rw [internLookup_append_of_none h]
    decide
  · rw [h]
    exact h

theorem phase2_imap_lookup_mono {W : Type} (mi : Bool) (delim : List Nat) :
    ∀ (l : List (Nat × Arc W)) (st : Phase2St W) (s : List Nat) (v : Nat),
      internLookup st.imap s = some v →
      internLookup (l.foldl (passArcStep mi delim) st).imap s = some v := by
  intro l
  induction l with
  | nil => intro st s v h; exact h
  | cons sa l ih =>
    intro st s v h
    rw [List.foldl_cons]
    apply ih
    unfold passArcStep
    by_cases hd : matchLabel mi sa.2 ∈ delim
    · rw [if_pos hd]
      exact internLookup_intern_mono h _
    · rw [if_neg hd]
      exact h

theorem phase2_omap_lookup_mono {W : Type} (mi : Bool) (delim : List Nat) :
    ∀ (l : List (Nat × Arc W)) (st : Phase2St W) (s : List Nat) (v : Nat),
      internLookup st.omap s = some v →
      internLookup (l.foldl (passArcStep mi delim) st).omap s = some v := by
  intro l
  induction l with
  | nil => intro st s v h; exact h
  | cons sa l ih =>
    intro st s v h
    rw [List.foldl_cons]
    apply ih
    unfold passArcStep
    by_cases hd : matchLabel mi sa.2 ∈ delim
    · rw [if_pos hd]
      exact internLookup_intern_mono h _
    · rw [if_neg hd]
      exact h

theorem expandLoop_zero_inv {W : Type} [DecidableEq W] (src : Wfst W)
    (cfg : Config) (ops : WeightOps W) (hmax : cfg.maxLength = 0) (base : Nat) :
    ∀ (fuel : Nat) (st : LoopSt W),
      (∀ t ∈ st.stack, matchLen cfg.matchInput t = 0) →
      internLookup st.imap [] = some 0 →
      internLookup st.omap [] = some 0 →
      base ≤ st.arcs.length →
      (∀ e ∈ st.arcs.drop base, (if cfg.matchInput then e.ilabel else e.olabel) = 0) →
      ∀ e ∈ (expandLoop src cfg ops fuel st).arcs.drop base,
        (if cfg.matchInput then e.ilabel else e.olabel) = 0 := by
  intro fuel
  induction fuel with
  | zero => intro st _ _ _ _ harcs; exact harcs
  | succ f ih =>
    intro st hstack himap homap hbase harcs
    cases hs : st.stack with
    | nil =>
      rw [expandLoop, hs]
      exact harcs
    | cons t0 rest =>
      rw [expandLoop, hs]
      have ht0 : matchLen cfg.matchInput t0 = 0 := hstack t0 (by simp [hs])
      apply ih
      · intro t ht
        rw [stepTuple_stack] at ht
        rcases List.mem_append.mp ht with hl | hr
        · rw [List.mem_reverse] at hl
          obtain ⟨a, _, hx⟩ := List.mem_filterMap.mp hl
          have hm := (matchLen_extOf hx).2
          rw [hmax] at hm
          exact Nat.le_zero.mp hm
        · exact hstack t (by simp [hs, hr])
      · exact stepTuple_imap_lookup src cfg ops t0 rest st.imap st.omap st.arcs himap
      · exact stepTuple_omap_lookup src cfg ops t0 rest st.imap st.omap st.arcs homap
      · rw [stepTuple_arcs]
        exact hbase.trans (by simp)
      · intro e he
        rw [stepTuple_arcs, List.drop_append_of_le_length hbase] at he
        rcases List.mem_append.mp he with hold | hnew
        · exact harcs e hold
        · by_cases hc : t0.q0 ≠ t0.q1 ∧
              (((arcsOf src t0.q1).any (fun a =>
                  decide (matchLabel cfg.matchInput a ∈ cfg.delim))) = true ∨
                finalOf ops src t0.q1 ≠ ops.zero)
          · rw [if_pos hc] at hnew
            have he' : e = ⟨t0.q0, (intern st.imap t0.ilbls).1,
                (intern st.omap t0.olbls).1, t0.w, t0.q1⟩ := by simpa using hnew
            subst he'
            cases hmi : cfg.matchInput with
            | true =>
              have hnil : t0.ilbls = [] := by
                rw [matchLen, hmi, if_pos rfl] at ht0
                exact List.length_eq_zero.mp ht0
              simp [hnil, intern_of_lookup_some himap]
            | false =>
              have hnil : t0.olbls = [] := by
                rw [matchLen, hmi] at ht0
                exact List.length_eq_zero.mp (by simpa using ht0)
              simp [hnil, intern_of_lookup_some homap]
          · rw [if_neg hc] at hnew
            simp at hnew

/-- C4 (amended): when `maxLength = 0`, an extension is pushed by the
bounded search only through a non-delimiter arc whose match-side label is
epsilon (so arcs with a non-epsilon match-side label are never traversed),
and every arc the search emits beyond the pass-through arcs carries the
epsilon id 0 on its match side (its accumulated match-side sequence is
empty). -/
theorem maxlength_zero_epsilon_only {W : Type} [DecidableEq W] (src : Wfst W)
    (cfg : Config) (ops : WeightOps W) (hmax : cfg.maxLength = 0)
    (imap0 omap0 : Interner)
    (hi0 : internLookup imap0 [] = none ∨ internLookup imap0 [] = some 0)
    (ho0 : internLookup omap0 [] = none ∨ internLookup omap0 [] = some 0)
    (fuel : Nat) :
    (∀ (t t' : SState W) (a : Arc W), extOf cfg ops t a = some t' →
      matchLabel cfg.matchInput a = 0) ∧
    (∀ e ∈ (expandRun src cfg ops fuel imap0 omap0).arcs.drop
        (phase2 src cfg imap0 omap0).arcs.length,
      (if cfg.matchInput then e.ilabel else e.olabel) = 0) := by
  constructor
  · intro t t' a hx
    have hl := (extOf_some hx).2.2
    rw [hmax] at hl
    by_cases h0 : matchLabel cfg.matchInput a = 0
    · exact h0
    · rw [if_neg h0] at hl
      omega
  · apply expandLoop_zero_inv src cfg ops hmax _ fuel
    · intro t ht
      have : t ∈ (phase2 src cfg imap0 omap0).wordStarts.map
          (fun s => (⟨s, s, ops.one, [], []⟩ : SState W)) := by
        simpa [expandInit] using ht
      obtain ⟨s, _, hts⟩ := List.mem_map.mp this
      subst hts
      cases cfg.matchInput <;> rfl
    · show internLookup (phase2 src cfg imap0 omap0).imap [] = some 0
      unfold phase2
      exact phase2_imap_lookup_mono cfg.matchInput cfg.delim (stateArcPairs src)
        ⟨reserveEpsilon imap0, reserveEpsilon omap0, [], [src.start]⟩ [] 0
        (reserveEpsilon_lookup hi0)
    · show internLookup (phase2 src cfg imap0 omap0).omap [] = some 0
      unfold phase2
      exact phase2_omap_lookup_mono cfg.matchInput cfg.delim (stateArcPairs src)
        ⟨reserveEpsilon imap0, reserveEpsilon omap0, [], [src.start]⟩ [] 0
        (reserveEpsilon_lookup ho0)
    · exact Nat.le_refl _
    · intro e he
      rw [show (expandInit src cfg ops imap0 omap0).arcs =
            (phase2 src cfg imap0 omap0).arcs from rfl,
          List.drop_length] at he
      exact absurd he (List.not_mem_nil e)

/-- The counterexample source for the claim that `maxLength = 0` admits only
pass-through arcs: its single arc `0 → 1` has input label 5, epsilon output
label, and leads to a final state. -/
def cexSrc4 : Wfst (Option (List Nat)) :=
  ⟨0, [none, some []], [[⟨5, 0, some [1], 1⟩], []]⟩

/-- The counterexample configuration: match side Output, delimiter set `{7}`,
`maxLength = 0`. -/
def cexCfg4 : Config := ⟨false, [7], 0⟩

/-- C4 (counterexample): with `maxLength = 0` the bounded search of
`cexSrc4` pushes an extension through its non-delimiter arc `0 → 1` (whose
match-side label is epsilon) and emits an arc even though no pass-through
arc exists, refuting the claim as stated. -/
theorem maxlength_zero_counterexample :
    (phase2 cexSrc4 cexCfg4 [] []).arcs = [] ∧
    (⟨0, 1, some [1], [5], []⟩ : SState (Option (List Nat))) ∈
      (expandRun cexSrc4 cexCfg4 freeOps 1 [] []).stack ∧
    (expandRun cexSrc4 cexCfg4 freeOps 10 [] []).arcs =
      [⟨0, 1, 0, some [1], 1⟩] := by
  refine ⟨rfl, by decide, by decide⟩

/-- Witness for `maxlength_zero_epsilon_only` on `cexSrc4`: the single arc
the search emits there carries the epsilon id on the match side. -/
theorem maxlength_zero_epsilon_only_witness :
    (if cexCfg4.matchInput
      then (⟨0, 1, 0, some [1], 1⟩ : EArc (Option (List Nat))).ilabel
      else (⟨0, 1, 0, some [1], 1⟩ : EArc (Option (List Nat))).olabel) = 0 :=
  (maxlength_zero_epsilon_only cexSrc4 cexCfg4 freeOps rfl [] []
    (Or.inl rfl) (Or.inl rfl) 10).2 ⟨0, 1, 0, some [1], 1⟩ (by decide)

/-- The source for the epsilon-pruning observation: two arcs with non-epsilon
input labels but epsilon output labels, leading to a final state. -/
def cexSrc9 : Wfst (Option (List Nat)) :=
  ⟨0, [none, none, some []],
   [[⟨5, 0, some [1], 1⟩], [⟨6, 0, some [2], 2⟩], []]⟩

/-- The epsilon-pruning configuration: match side Output, delimiter set
`{9}`, `maxLength = 0`. -/
def cexCfg9 : Config := ⟨false, [9], 0⟩

/-- C9: the pruning check compares `maxLength` only against the accumulated
non-epsilon match-side label count — a non-delimiter arc whose match-side
label is epsilon is traversed regardless of `maxLength`, leaving the counted
length unchanged — and consequently the non-match-side sequence of a pushed
tuple or emitted arc can hold more than `maxLength` labels, as on `cexSrc9`
where with `maxLength = 0` the emitted arc's input id names the length-2
sequence `[5, 6]`. -/
theorem epsilon_length_pruning {W : Type} (cfg : Config) (ops : WeightOps W) :
    (∀ (t : SState W) (a : Arc W),
      matchLabel cfg.matchInput a ∉ cfg.delim →
      matchLabel cfg.matchInput a = 0 →
      matchLen cfg.matchInput t ≤ cfg.maxLength →
      ∃ t', extOf cfg ops t a = some t' ∧
        matchLen cfg.matchInput t' = matchLen cfg.matchInput t) ∧
    ((⟨0, 2, some [1, 2], [5, 6], []⟩ : SState (Option (List Nat))) ∈
        (expandRun cexSrc9 cexCfg9 freeOps 2 [] []).stack ∧
      (expandRun cexSrc9 cexCfg9 freeOps 10 [] []).arcs =
        [⟨0, 1, 0, some [1, 2], 2⟩] ∧
      internLookup (expandRun cexSrc9 cexCfg9 freeOps 10 [] []).imap [5, 6] =
        some 1 ∧
      ([5, 6] : List Nat).length > cexCfg9.maxLength) := by
  constructor
  · intro t a hd h0 hlen
    have hx : extOf cfg ops t a = some ⟨t.q0, a.nextstate, ops.times t.w a.weight,
        t.ilbls ++ (if a.ilabel ≠ 0 then [a.ilabel] else []),
        t.olbls ++ (if a.olabel ≠ 0 then [a.olabel] else [])⟩ := by
      unfold extOf pushOf
      rw [if_neg hd, if_pos (by rw [h0]; simpa using hlen)]
    refine ⟨_, hx, ?_⟩
    exact ((matchLen_extOf hx).1.trans (by rw [h0]; simp))
  · exact ⟨by decide, by decide, by decide, by decide⟩

/-- Witness for `epsilon_length_pruning`: the epsilon-output arc of
`cexSrc9` is traversed from the seed tuple despite `maxLength = 0`. -/
theorem epsilon_length_pruning_witness :
    ∃ t', extOf cexCfg9 freeOps
        (⟨0, 0, some [], [], []⟩ : SState (Option (List Nat)))
        ⟨5, 0, some [1], 1⟩ = some t' ∧
      matchLen cexCfg9.matchInput t' =
        matchLen cexCfg9.matchInput
          (⟨0, 0, some [], [], []⟩ : SState (Option (List Nat))) :=
  (epsilon_length_pruning cexCfg9 freeOps).1 _ _ (by decide) (by decide)
    (by decide)

/-! ### Determinism of Expand (claim C7)

In the embedding `Expand` is a pure function, so equal inputs trivially give
equal outputs; the content of the determinism claim is that the delimiter
set is consulted only through membership, so the traversal (and hence every
intern call and the whole output) is a function of the source's arc order
alone, not of any representation detail of the set. -/

theorem extOf_delim_congr {W : Type} (mi : Bool) (d1 d2 : List Nat) (ml : Nat)
    (hd : ∀ x, x ∈ d1 ↔ x ∈ d2) (ops : WeightOps W) (t : SState W) (a : Arc W) :
    extOf ⟨mi, d1, ml⟩ ops t a = extOf ⟨mi, d2, ml⟩ ops t a := by
  unfold extOf
  by_cases h : matchLabel mi a ∈ d1
  · rw [if_pos h, if_pos ((hd _).mp h)]
  · rw [if_neg h, if_neg (fun hx => h ((hd _).mpr hx))]
    rfl

theorem scanArcs_delim_congr {W : Type} (src : Wfst W) (mi : Bool)
    (d1 d2 : List Nat) (ml : Nat) (hd : ∀ x, x ∈ d1 ↔ x ∈ d2)
    (ops : WeightOps W) (t : SState W) :
    scanArcs src ⟨mi, d1, ml⟩ ops t = scanArcs src ⟨mi, d2, ml⟩ ops t := by
  rw [scanArcs_eq, scanArcs_eq]
  congr 1
  · exact congrArg (fun f => List.filterMap f (arcsOf src t.q1))
      (funext (extOf_delim_congr mi d1 d2 ml hd ops t))
  · exact congrArg (fun f => List.any (arcsOf src t.q1) f)
      (funext fun a => decide_eq_decide.mpr (hd (matchLabel mi a)))

theorem stepTuple_delim_congr {W : Type} [DecidableEq W] (src : Wfst W)
    (mi : Bool) (d1 d2 : List Nat) (ml : Nat) (hd : ∀ x, x ∈ d1 ↔ x ∈ d2)
    (ops : WeightOps W) (t : SState W) (rest : List (SState W))
    (imap omap : Interner) (acc : List (EArc W)) :
    stepTuple src ⟨mi, d1, ml⟩ ops t rest imap omap acc =
      stepTuple src ⟨mi, d2, ml⟩ ops t rest imap omap acc := by
  unfold stepTuple
  rw [scanArcs_delim_congr src mi d1 d2 ml hd ops t]

theorem expandLoop_delim_congr {W : Type} [DecidableEq W] (src : Wfst W)
    (mi : Bool) (d1 d2 : List Nat) (ml : Nat) (hd : ∀ x, x ∈ d1 ↔ x ∈ d2)
    (ops : WeightOps W) :
    ∀ (fuel : Nat) (st : LoopSt W),
      expandLoop src ⟨mi, d1, ml⟩ ops fuel st =
        expandLoop src ⟨mi, d2, ml⟩ ops fuel st := by
  intro fuel
  induction fuel with
  | zero => intro st; rfl
  | succ f ih =>
    intro st
    cases hs : st.stack with
    | nil => rw [expandLoop, expandLoop, hs]
    | cons t rest =>
      rw [expandLoop, expandLoop, hs]
      show expandLoop src ⟨mi, d1, ml⟩ ops f
          (stepTuple src ⟨mi, d1, ml⟩ ops t rest st.imap st.omap st.arcs) =
        expandLoop src ⟨mi, d2, ml⟩ ops f
          (stepTuple src ⟨mi, d2, ml⟩ ops t rest st.imap st.omap st.arcs)
      rw [stepTuple_delim_congr src mi d1 d2 ml hd ops t rest st.imap st.omap st.arcs]
      exact ih _

theorem passArcStep_delim_congr {W : Type} (mi : Bool) (d1 d2 : List Nat)
    (hd : ∀ x, x ∈ d1 ↔ x ∈ d2) (st : Phase2St W) (sa : Nat × Arc W) :
    passArcStep mi d1 st sa = passArcStep mi d2 st sa := by
  unfold passArcStep
  by_cases h : matchLabel mi sa.2 ∈ d1
  · rw [if_pos h, if_pos ((hd _).mp h)]
  · rw [if_neg h, if_neg (fun hx => h ((hd _).mpr hx))]

theorem phase2_delim_congr {W : Type} (src : Wfst W) (mi : Bool)
    (d1 d2 : List Nat) (ml : Nat) (hd : ∀ x, x ∈ d1 ↔ x ∈ d2)
    (i0 o0 : Interner) :
    phase2 src ⟨mi, d1, ml⟩ i0 o0 = phase2 src ⟨mi, d2, ml⟩ i0 o0 := by
  show (stateArcPairs src).foldl (passArcStep mi d1)
      ⟨reserveEpsilon i0, reserveEpsilon o0, [], [src.start]⟩ =
    (stateArcPairs src).foldl (passArcStep mi d2)
      ⟨reserveEpsilon i0, reserveEpsilon o0, [], [src.start]⟩
  exact congrArg (fun f => (stateArcPairs src).foldl f
      ⟨reserveEpsilon i0, reserveEpsilon o0, [], [src.start]⟩)
    (funext fun st => funext fun sa => passArcStep_delim_congr mi d1 d2 hd st sa)

theorem expandInit_delim_congr {W : Type} (src : Wfst W) (mi : Bool)
    (d1 d2 : List Nat) (ml : Nat) (hd : ∀ x, x ∈ d1 ↔ x ∈ d2)
    (ops : WeightOps W) (i0 o0 : Interner) :
    expandInit src ⟨mi, d1, ml⟩ ops i0 o0 = expandInit src ⟨mi, d2, ml⟩ ops i0 o0 := by
  unfold expandInit
  rw [phase2_delim_congr src mi d1 d2 ml hd i0 o0]

/-- C7: `Expand` is deterministic: equal inputs (the same source automaton
with the same arc order, the same configuration, the same initial interner
contents) give identical destination automata and interner states; moreover
the delimiter set is used only through membership, so two delimiter lists
with the same members are indistinguishable — the traversal order is a pure
function of the source automaton's arc order. -/
theorem expand_deterministic {W : Type} [DecidableEq W] (src1 src2 : Wfst W)
    (mi : Bool) (d1 d2 : List Nat) (ml : Nat) (ops : WeightOps W) (fuel : Nat)
    (i1 o1 i2 o2 : Interner) :
    (src1 = src2 → d1 = d2 → i1 = i2 → o1 = o2 →
      expandFst src1 ⟨mi, d1, ml⟩ ops fuel i1 o1 =
        expandFst src2 ⟨mi, d2, ml⟩ ops fuel i2 o2) ∧
    ((∀ x, x ∈ d1 ↔ x ∈ d2) → src1 = src2 → i1 = i2 → o1 = o2 →
      expandFst src1 ⟨mi, d1, ml⟩ ops fuel i1 o1 =
        expandFst src2 ⟨mi, d2, ml⟩ ops fuel i2 o2) := by
  constructor
  · intro h1 h2 h3 h4
    subst h1; subst h2; subst h3; subst h4
    rfl
  · intro hd h1 h3 h4
    subst h1; subst h3; subst h4
    have hrun : expandRun src1 ⟨mi, d1, ml⟩ ops fuel i1 o1 =
        expandRun src1 ⟨mi, d2, ml⟩ ops fuel i1 o1 := by
      unfold expandRun
      rw [expandInit_delim_congr src1 mi d1 d2 ml hd ops i1 o1]
      exact expandLoop_delim_congr src1 mi d1 d2 ml hd ops fuel _
    show (trim ops (destOfRun ops src1 (expandRun src1 ⟨mi, d1, ml⟩ ops fuel i1 o1)),
          (expandRun src1 ⟨mi, d1, ml⟩ ops fuel i1 o1).imap,
          (expandRun src1 ⟨mi, d1, ml⟩ ops fuel i1 o1).omap) =
        (trim ops (destOfRun ops src1 (expandRun src1 ⟨mi, d2, ml⟩ ops fuel i1 o1)),
          (expandRun src1 ⟨mi, d2, ml⟩ ops fuel i1 o1).imap,
          (expandRun src1 ⟨mi, d2, ml⟩ ops fuel i1 o1).omap)
    rw [hrun]

/-- Witness for `expand_deterministic`: the delimiter lists `[3]` and
`[3, 3]` have the same members, and the worked example expands identically
under both. -/
theorem expand_deterministic_witness :
    expandFst exSrc ⟨false, [3], 10⟩ freeOps 100 [] [] =
      expandFst exSrc ⟨false, [3, 3], 10⟩ freeOps 100 [] [] :=
  (expand_deterministic exSrc exSrc false [3] [3, 3] 10 freeOps 100 [] [] [] []).2
    (fun x => by simp) rfl rfl rfl

/-! ### No delimiters: the destination arcs are the start-to-final paths
(claim C3)

With an empty delimiter set, the only word-start state is the start state
and the bounded search explores the tree of paths out of it.  We relate the
stack loop to a recursive enumeration (`emitsF`) of the emitted
`(source, destination, weight)` triples, and that enumeration to a recursive
enumeration (`goodExt`) of the admissible source paths; both are fueled, and
on sources whose arcs strictly increase the state id (acyclic, topologically
ordered — the component's documented precondition) the fuel
`numArcs - state + 1` is always enough. -/

/-- Arcs strictly increase the state id: the documented acyclicity
precondition of the component, in the form Kaldi lattices satisfy
(topological order). -/
def MonoArcs {W : Type} (src : Wfst W) : Prop :=
  ∀ s, ∀ a ∈ arcsOf src s, s < a.nextstate

/-- The final state of a path started at `q`. -/
def pathEnd {W : Type} (q : Nat) (p : List (Arc W)) : Nat :=
  p.foldl (fun _ a => a.nextstate) q

/-- `combine` of the arc weights of a path, in order, seeded with `w`. -/
def pathTimes {W : Type} (ops : WeightOps W) (w : W) (p : List (Arc W)) : W :=
  p.foldl (fun w a => ops.times w a.weight) w

/-- The number of non-epsilon match-side labels of a path. -/
def matchCount {W : Type} (mi : Bool) (p : List (Arc W)) : Nat :=
  (p.filter (fun a => matchLabel mi a ≠ 0)).length

/-- The `(source, destination, weight)` triples emitted by the bounded
search in the subtree of one stack tuple, in emission order: the tuple's own
arc first (when its emission condition holds), then the subtrees of its
extensions, last-pushed first. -/
def emitsF {W : Type} [DecidableEq W] (src : Wfst W) (cfg : Config)
    (ops : WeightOps W) : Nat → SState W → List (Nat × Nat × W)
  | 0, _ => []
  | f + 1, t =>
    (if t.q0 ≠ t.q1 ∧
        (((arcsOf src t.q1).any (fun a =>
            decide (matchLabel cfg.matchInput a ∈ cfg.delim))) = true ∨
          finalOf ops src t.q1 ≠ ops.zero)
      then [(t.q0, t.q1, t.w)] else []) ++
    ((arcsOf src t.q1).filterMap (extOf cfg ops t)).reverse.flatMap
      (emitsF src cfg ops f)

/-- The canonical sufficient fuel for the subtree of a tuple under
`MonoArcs`. -/
def emits {W : Type} [DecidableEq W] (src : Wfst W) (cfg : Config)
    (ops : WeightOps W) (t : SState W) : List (Nat × Nat × W) :=
  emitsF src cfg ops (src.arcs.length - t.q1 + 1) t

/-- The admissible delimiter-free extensions from state `q` with `c`
non-epsilon match-side labels already accumulated: the empty path when `q`
is final, and `a :: p` for every arc `a` surviving the `maxLength` check
and every admissible extension `p` from its destination, in the search's
exploration order. -/
def goodExt {W : Type} [DecidableEq W] (src : Wfst W) (mi : Bool) (ml : Nat)
    (ops : WeightOps W) : Nat → Nat → Nat → List (List (Arc W))
  | 0, _, _ => []
  | f + 1, q, c =>
    (if finalOf ops src q ≠ ops.zero then [([] : List (Arc W))] else []) ++
    ((arcsOf src q).filter (fun a =>
        c + (if matchLabel mi a = 0 then 0 else 1) ≤ ml)).reverse.flatMap
      (fun a => (goodExt src mi ml ops f a.nextstate
          (c + (if matchLabel mi a = 0 then 0 else 1))).map (fun p => a :: p))

/-- The nonempty admissible start-to-final paths of the source, in the
bounded search's exploration order. -/
def goodPaths {W : Type} [DecidableEq W] (src : Wfst W) (mi : Bool) (ml : Nat)
    (ops : WeightOps W) : List (List (Arc W)) :=
  (goodExt src mi ml ops (src.arcs.length - src.start + 1) src.start 0).filter
    (fun p => ¬p.isEmpty)

theorem arcsOf_eq_nil_of_le {W : Type} {src : Wfst W} {q : Nat}
    (h : src.arcs.length ≤ q) : arcsOf src q = [] := by
  unfold arcsOf
  rw [List.getD_eq_getElem?_getD, List.getElem?_eq_none (by omega)]
  rfl

theorem flatMap_congr_mem {α β : Type} {l : List α} {f g : α → List β}
    (h : ∀ x ∈ l, f x = g x) : l.flatMap f = l.flatMap g := by
  induction l with
  | nil => rfl
  | cons a l ih =>
    rw [List.flatMap_cons, List.flatMap_cons, h a (by simp),
      ih (fun x hx => h x (by simp [hx]))]

/-- The destination state of an extension tuple is the arc's destination. -/
theorem extOf_q1 {W : Type} {cfg : Config} {ops : WeightOps W}
    {t t' : SState W} {a : Arc W} (h : extOf cfg ops t a = some t') :
    t'.q1 = a.nextstate := by
  rw [(extOf_some h).1]

/-- Under `MonoArcs`, `emitsF` does not depend on the fuel once the fuel
exceeds `numArcs - q1`. -/
theorem emitsF_stable {W : Type} [DecidableEq W] {src : Wfst W} (cfg : Config)
    (ops : WeightOps W) (hmono : MonoArcs src) :
    ∀ (f1 : Nat) (t : SState W) (f2 : Nat),
      src.arcs.length - t.q1 < f1 → src.arcs.length - t.q1 < f2 →
      emitsF src cfg ops f1 t = emitsF src cfg ops f2 t := by
  intro f1
  induction f1 with
  | zero => intro t f2 h1 _; omega
  | succ f ih =>
    intro t f2 h1 h2
    cases f2 with
    | zero => omega
    | succ g =>
      rw [emitsF, emitsF]
      congr 1
      apply flatMap_congr_mem
      intro t' ht'
      rw [List.mem_reverse] at ht'
      obtain ⟨a, ha, hx⟩ := List.mem_filterMap.mp ht'
      by_cases hq : src.arcs.length ≤ t.q1
      · rw [arcsOf_eq_nil_of_le hq] at ha
        exact absurd ha (List.not_mem_nil a)
      · have hlt : t.q1 < a.nextstate := hmono t.q1 a ha
        have hbound : src.arcs.length - t'.q1 < f := by
          rw [extOf_q1 hx]
          omega
        exact ih t' g hbound (by rw [extOf_q1 hx] at hbound ⊢; omega)

/-- Under `MonoArcs`, a terminating run of the search loop emits exactly the
concatenation of the recursive subtree emissions of its stack tuples. -/
theorem expandLoop_arcs_emits {W : Type} [DecidableEq W] (src : Wfst W)
    (cfg : Config) (ops : WeightOps W) (hmono : MonoArcs src) :
    ∀ (fuel : Nat) (st : LoopSt W),
      (expandLoop src cfg ops fuel st).stack = [] →
      (expandLoop src cfg ops fuel st).arcs.map (fun e => (e.src, e.dst, e.weight)) =
        st.arcs.map (fun e => (e.src, e.dst, e.weight)) ++
          st.stack.flatMap (emits src cfg ops) := by
  intro fuel
  induction fuel with
  | zero =>
    intro st hstack
    have hst : expandLoop src cfg ops 0 st = st := rfl
    rw [hst] at hstack ⊢
    rw [hstack]
    simp
  | succ f ih =>
    intro st hstack
    cases hs : st.stack with
    | nil =>
      rw [expandLoop, hs]
      show st.arcs.map (fun e => (e.src, e.dst, e.weight)) = _
      simp
    | cons t rest =>
      have hstack' : (expandLoop src cfg ops f
          (stepTuple src cfg ops t rest st.imap st.omap st.arcs)).stack = [] := by
        rw [expandLoop, hs] at hstack
        exact hstack
      rw [expandLoop, hs]
      show (expandLoop src cfg ops f
          (stepTuple src cfg ops t rest st.imap st.omap st.arcs)).arcs.map
            (fun e => (e.src, e.dst, e.weight)) = _
      rw [ih _ hstack', stepTuple_arcs, stepTuple_stack]
      have hchild : ((arcsOf src t.q1).filterMap (extOf cfg ops t)).reverse.flatMap
          (emitsF src cfg ops (src.arcs.length - t.q1)) =
          ((arcsOf src t.q1).filterMap (extOf cfg ops t)).reverse.flatMap
            (emits src cfg ops) := by
        apply flatMap_congr_mem
        intro t' ht'
        rw [List.mem_reverse] at ht'
        obtain ⟨a, ha, hx⟩ := List.mem_filterMap.mp ht'
        by_cases hq : src.arcs.length ≤ t.q1
        · rw [arcsOf_eq_nil_of_le hq] at ha
          exact absurd ha (List.not_mem_nil a)
        · have hlt : t.q1 < a.nextstate := hmono t.q1 a ha
          have hb : src.arcs.length - t'.q1 < src.arcs.length - t.q1 := by
            rw [extOf_q1 hx]
            omega
          exact emitsF_stable cfg ops hmono _ t' _ hb (by omega)
      have hemit : emits src cfg ops t =
          (if t.q0 ≠ t.q1 ∧
              (((arcsOf src t.q1).any (fun a =>
                  decide (matchLabel cfg.matchInput a ∈ cfg.delim))) = true ∨
                finalOf ops src t.q1 ≠ ops.zero)
            then [(t.q0, t.q1, t.w)] else []) ++
          ((arcsOf src t.q1).filterMap (extOf cfg ops t)).reverse.flatMap
            (emits src cfg ops) := by
        show emitsF src cfg ops (src.arcs.length - t.q1 + 1) t = _
        rw [emitsF, hchild]
      rw [List.flatMap_cons, hemit]
      by_cases hc : t.q0 ≠ t.q1 ∧
          (((arcsOf src t.q1).any (fun a =>
              decide (matchLabel cfg.matchInput a ∈ cfg.delim))) = true ∨
            finalOf ops src t.q1 ≠ ops.zero)
      · rw [if_pos hc, if_pos hc]
        simp
      · rw [if_neg hc, if_neg hc]
        simp

/-- With an empty delimiter set the pass-through scan does nothing. -/
theorem phase2_nil_delim {W : Type} (src : Wfst W) (mi : Bool) (ml : Nat)
    (i0 o0 : Interner) :
    phase2 src ⟨mi, [], ml⟩ i0 o0 =
      ⟨reserveEpsilon i0, reserveEpsilon o0, [], [src.start]⟩ := by
  show (stateArcPairs src).foldl (passArcStep mi [])
      ⟨reserveEpsilon i0, reserveEpsilon o0, [], [src.start]⟩ = _
  suffices h : ∀ (l : List (Nat × Arc W)) (st : Phase2St W),
      l.foldl (passArcStep mi []) st = st from h _ _
  intro l
  induction l with
  | nil => intro st; rfl
  | cons sa l ih =>
    intro st
    rw [List.foldl_cons, show passArcStep mi [] st sa = st from by
      simp [passArcStep]]
    exact ih st

theorem matchLen_append_seq {W : Type} (mi : Bool) (t : SState W) (a : Arc W)
    (q0 q1 : Nat) (w : W) :
    matchLen mi (⟨q0, q1, w, t.ilbls ++ ilSeq a, t.olbls ++ olSeq a⟩ : SState W) =
      matchLen mi t + (if matchLabel mi a = 0 then 0 else 1) := by
  cases mi with
  | true =>
    simp only [matchLen, matchLabel, if_true, ilSeq, List.length_append]
    by_cases h0 : a.ilabel = 0 <;> simp [h0]
  | false =>
    simp only [matchLen, matchLabel, if_false, olSeq, List.length_append]
    by_cases h0 : a.olabel = 0 <;> simp [h0]

/-- With an empty delimiter set the scan's extension map is the guarded
extension of the tuple through each surviving arc. -/
theorem filterMap_extOf_nil_delim {W : Type} (mi : Bool) (ml : Nat)
    (ops : WeightOps W) (t : SState W) (l : List (Arc W)) :
    l.filterMap (extOf ⟨mi, [], ml⟩ ops t) =
      (l.filter (fun a =>
          matchLen mi t + (if matchLabel mi a = 0 then 0 else 1) ≤ ml)).map
        (fun a => ⟨t.q0, a.nextstate, ops.times t.w a.weight,
          t.ilbls ++ ilSeq a, t.olbls ++ olSeq a⟩) := by
  induction l with
  | nil => rfl
  | cons a l ih =>
    rw [List.filterMap_cons, List.filter_cons]
    by_cases h : matchLen mi t + (if matchLabel mi a = 0 then 0 else 1) ≤ ml
    · have hx : extOf ⟨mi, [], ml⟩ ops t a =
          some ⟨t.q0, a.nextstate, ops.times t.w a.weight,
            t.ilbls ++ ilSeq a, t.olbls ++ olSeq a⟩ := by
        unfold extOf pushOf
        rw [if_neg (List.not_mem_nil _), if_pos h]
        rfl
      rw [hx]
      simp [h, ih]
    · have hx : extOf ⟨mi, [], ml⟩ ops t a = none := by
        unfold extOf pushOf
        rw [if_neg (List.not_mem_nil _), if_neg h]
      rw [hx]
      simp [h, ih]

/-- With an empty delimiter set, the subtree emissions of a tuple with
`q0 < q1` are exactly the admissible extensions of its current state,
projected to `(origin, path end, accumulated weight)`. -/
theorem emitsF_eq_goodExt {W : Type} [DecidableEq W] (src : Wfst W) (mi : Bool)
    (ml : Nat) (ops : WeightOps W) (hmono : MonoArcs src) :
    ∀ (f : Nat) (t : SState W), t.q0 < t.q1 →
      emitsF src ⟨mi, [], ml⟩ ops f t =
        (goodExt src mi ml ops f t.q1 (matchLen mi t)).map
          (fun p => (t.q0, pathEnd t.q1 p, pathTimes ops t.w p)) := by
  intro f
  induction f with
  | zero => intro t ht; rfl
  | succ f ih =>
    intro t ht
    rw [emitsF, goodExt, List.map_append]
    congr 1
    · by_cases hf : finalOf ops src t.q1 ≠ ops.zero
      · rw [if_pos hf, if_pos ⟨Nat.ne_of_lt ht, Or.inr hf⟩]
        rfl
      · rw [if_neg hf, if_neg ?hneg]
        · rfl
        case hneg =>
          rintro ⟨-, h2 | h2⟩
          · rw [List.any_eq_true] at h2
            obtain ⟨a, -, ha⟩ := h2
            simp at ha
          · exact hf h2
    · rw [filterMap_extOf_nil_delim, ← List.map_reverse, List.flatMap_map,
        List.map_flatMap]
      apply flatMap_congr_mem
      intro a ha
      rw [List.mem_reverse, List.mem_filter] at ha
      have hlt : t.q0 < a.nextstate :=
        Nat.lt_trans ht (hmono t.q1 a ha.1)
      rw [ih ⟨t.q0, a.nextstate, ops.times t.w a.weight,
          t.ilbls ++ ilSeq a, t.olbls ++ olSeq a⟩ hlt, matchLen_append_seq]
      rw [List.map_map]
      rfl

/-- The match-side length of a seed tuple is zero. -/
theorem matchLen_seed {W : Type} (mi : Bool) (q : Nat) (w : W) :
    matchLen mi (⟨q, q, w, [], []⟩ : SState W) = 0 := by
  cases mi <;> rfl

/-- The match-side length of a one-arc extension of a seed tuple. -/
theorem matchLen_seed_ext {W : Type} (mi : Bool) (a : Arc W) (q n : Nat) (w : W) :
    matchLen mi (⟨q, n, w, ilSeq a, olSeq a⟩ : SState W) =
      (if matchLabel mi a = 0 then 0 else 1) := by
  cases mi with
  | true =>
    simp only [matchLen, matchLabel, if_true, ilSeq]
    by_cases h0 : a.ilabel = 0 <;> simp [h0]
  | false =>
    simp only [matchLen, matchLabel, if_false, olSeq]
    by_cases h0 : a.olabel = 0 <;> simp [h0]

/-- The scan's extension map of a seed tuple, with an empty delimiter set. -/
theorem filterMap_extOf_root {W : Type} (mi : Bool) (ml : Nat)
    (ops : WeightOps W) (q : Nat) (l : List (Arc W)) :
    l.filterMap (extOf ⟨mi, [], ml⟩ ops ⟨q, q, ops.one, [], []⟩) =
      (l.filter (fun a => 0 + (if matchLabel mi a = 0 then 0 else 1) ≤ ml)).map
        (fun a => ⟨q, a.nextstate, ops.times ops.one a.weight,
          ilSeq a, olSeq a⟩) := by
  rw [filterMap_extOf_nil_delim, matchLen_seed]
  rfl

/-- With an empty delimiter set, the subtree emissions of a seed tuple
`(q, q, one, [], [])` are the nonempty admissible extensions of `q`. -/
theorem emitsF_root_eq_goodExt {W : Type} [DecidableEq W] (src : Wfst W)
    (mi : Bool) (ml : Nat) (ops : WeightOps W) (hmono : MonoArcs src)
    (q : Nat) :
    ∀ f, emitsF src ⟨mi, [], ml⟩ ops f (⟨q, q, ops.one, [], []⟩ : SState W) =
      ((goodExt src mi ml ops f q 0).filter (fun p => ¬p.isEmpty)).map
        (fun p => (q, pathEnd q p, pathTimes ops ops.one p)) := by
  intro f
  cases f with
  | zero => rfl
  | succ f =>
    rw [emitsF, goodExt, if_neg (by rintro ⟨h, -⟩; exact h rfl)]
    rw [List.filter_append, List.map_append]
    have hmarker : ((if finalOf ops src q ≠ ops.zero
        then [([] : List (Arc W))] else []).filter (fun p => ¬p.isEmpty)) = [] := by
      by_cases hf : finalOf ops src q ≠ ops.zero
      · rw [if_pos hf]
        rfl
      · rw [if_neg hf]
        rfl
    rw [hmarker]
    show ((arcsOf src q).filterMap
        (extOf ⟨mi, [], ml⟩ ops ⟨q, q, ops.one, [], []⟩)).reverse.flatMap
        (emitsF src ⟨mi, [], ml⟩ ops f) = _
    rw [filterMap_extOf_root, ← List.map_reverse, List.flatMap_map]
    have hfilter : ∀ (ll : List (List (Arc W))) (a : Arc W),
        ((ll.map (fun p => a :: p)).filter (fun p => ¬p.isEmpty)) =
          ll.map (fun p => a :: p) := by
      intro ll a
      apply List.filter_eq_self.mpr
      intro p hp
      obtain ⟨p1, -, hp1⟩ := List.mem_map.mp hp
      subst hp1
      simp
    have hflt : (((arcsOf src q).filter (fun a =>
          0 + (if matchLabel mi a = 0 then 0 else 1) ≤ ml)).reverse.flatMap
        (fun a => (goodExt src mi ml ops f a.nextstate
            (0 + (if matchLabel mi a = 0 then 0 else 1))).map
          (fun p => a :: p))).filter (fun p => ¬p.isEmpty) =
        ((arcsOf src q).filter (fun a =>
          0 + (if matchLabel mi a = 0 then 0 else 1) ≤ ml)).reverse.flatMap
        (fun a => (goodExt src mi ml ops f a.nextstate
            (0 + (if matchLabel mi a = 0 then 0 else 1))).map
          (fun p => a :: p)) := by
      rw [List.filter_flatMap]
      apply flatMap_congr_mem
      intro a _
      exact hfilter _ a
    rw [hflt, List.map_flatMap]
    apply flatMap_congr_mem
    intro a ha
    rw [List.mem_reverse, List.mem_filter] at ha
    have hq0 : q < a.nextstate := hmono q a ha.1
    have h1 := emitsF_eq_goodExt src mi ml ops hmono f
      ⟨q, a.nextstate, ops.times ops.one a.weight, ilSeq a, olSeq a⟩ hq0
    rw [h1, matchLen_seed_ext, List.map_map]
    simp only [Nat.zero_add]
    rfl

/-- The count of non-epsilon match-side labels of a path extension. -/
theorem matchCount_cons {W : Type} (mi : Bool) (a : Arc W) (p : List (Arc W)) :
    matchCount mi (a :: p) =
      (if matchLabel mi a = 0 then 0 else 1) + matchCount mi p := by
  unfold matchCount
  rw [List.filter_cons]
  by_cases h0 : matchLabel mi a = 0
  · simp [h0]
  · simp [h0]
    omega

/-- Soundness of the extension enumeration: every enumerated extension is a
path to a final state, within the length bound when nonempty. -/
theorem goodExt_sound {W : Type} [DecidableEq W] (src : Wfst W) (mi : Bool)
    (ml : Nat) (ops : WeightOps W) :
    ∀ (f : Nat) (q c : Nat) (p : List (Arc W)), p ∈ goodExt src mi ml ops f q c →
      IsPath src q p (pathEnd q p) ∧
      finalOf ops src (pathEnd q p) ≠ ops.zero ∧
      (p = [] ∨ c + matchCount mi p ≤ ml) := by
  intro f
  induction f with
  | zero => intro q c p hp; simp [goodExt] at hp
  | succ f ih =>
    intro q c p hp
    rw [goodExt] at hp
    rcases List.mem_append.mp hp with hm | hc
    · by_cases hf : finalOf ops src q ≠ ops.zero
      · rw [if_pos hf] at hm
        have hpe : p = [] := by simpa using hm
        subst hpe
        exact ⟨rfl, hf, Or.inl rfl⟩
      · rw [if_neg hf] at hm
        simp at hm
    · obtain ⟨a, ha, hpa⟩ := List.mem_flatMap.mp hc
      rw [List.mem_reverse, List.mem_filter] at ha
      obtain ⟨p1, hp1, hpp⟩ := List.mem_map.mp hpa
      subst hpp
      obtain ⟨hpath, hfin, hbound⟩ := ih a.nextstate _ p1 hp1
      refine ⟨⟨ha.1, hpath⟩, hfin, Or.inr ?_⟩
      have hguard : c + (if matchLabel mi a = 0 then 0 else 1) ≤ ml := by
        simpa using ha.2
      rw [matchCount_cons]
      rcases hbound with hb | hb
      · subst hb
        simpa [matchCount] using hguard
      · omega

/-- Completeness of the extension enumeration: with enough fuel, every path
to a final state respecting the length bound is enumerated. -/
theorem goodExt_complete {W : Type} [DecidableEq W] (src : Wfst W) (mi : Bool)
    (ml : Nat) (ops : WeightOps W) :
    ∀ (f : Nat) (q c : Nat) (p : List (Arc W)),
      p.length < f →
      IsPath src q p (pathEnd q p) →
      finalOf ops src (pathEnd q p) ≠ ops.zero →
      (p = [] ∨ c + matchCount mi p ≤ ml) →
      p ∈ goodExt src mi ml ops f q c := by
  intro f
  induction f with
  | zero => intro q c p hlen; omega
  | succ f ih =>
    intro q c p hlen hpath hfin hbound
    rw [goodExt]
    cases p with
    | nil =>
      apply List.mem_append.mpr
      left
      have hq : pathEnd q ([] : List (Arc W)) = q := rfl
      rw [if_pos (hq ▸ hfin)]
      simp
    | cons a p1 =>
      apply List.mem_append.mpr
      right
      apply List.mem_flatMap.mpr
      have hpath1 : a ∈ arcsOf src q ∧
          IsPath src a.nextstate p1 (pathEnd a.nextstate p1) := hpath
      have hbound1 : c + matchCount mi (a :: p1) ≤ ml := by
        rcases hbound with hb | hb
        · exact absurd hb (by simp)
        · exact hb
      rw [matchCount_cons] at hbound1
      refine ⟨a, ?_, ?_⟩
      · rw [List.mem_reverse, List.mem_filter]
        exact ⟨hpath1.1, by simp; omega⟩
      · apply List.mem_map.mpr
        refine ⟨p1, ?_, rfl⟩
        have hlen1 : p1.length < f := by
          simp only [List.length_cons] at hlen
          omega
        apply ih a.nextstate _ p1 hlen1 hpath1.2 hfin
        by_cases hp1 : p1 = []
        · exact Or.inl hp1
        · exact Or.inr (by omega)

/-- Under `MonoArcs` a path starting at `q` has at most `numArcs - q`
arcs. -/
theorem isPath_length_le {W : Type} {src : Wfst W} (hmono : MonoArcs src) :
    ∀ (p : List (Arc W)) (q e : Nat), IsPath src q p e →
      p.length ≤ src.arcs.length - q := by
  intro p
  induction p with
  | nil => intro q e _; simp
  | cons a p1 ih =>
    intro q e h
    have h1 : a ∈ arcsOf src q ∧ IsPath src a.nextstate p1 e := h
    have hq : q < src.arcs.length := by
      by_contra hq
      rw [arcsOf_eq_nil_of_le (by omega)] at h1
      exact absurd h1.1 (List.not_mem_nil a)
    have hlt : q < a.nextstate := hmono q a h1.1
    have := ih a.nextstate e h1.2
    simp only [List.length_cons]
    omega

/-- C3: with an empty delimiter set, on a topologically ordered (hence
acyclic, the component's documented precondition) source whose bounded
search terminates, the arcs the search adds to the destination — projected
to (source state, destination state, weight) — are exactly, one arc per
path and in exploration order, the nonempty start-to-final paths of the
source whose match-side non-epsilon label count is at most `maxLength`,
each arc's weight being the `combine` (in path order, seeded with `one()`)
of its path's arc weights; and `goodPaths` enumerates exactly those
paths. -/
theorem no_delimiters_paths {W : Type} [DecidableEq W] (src : Wfst W)
    (mi : Bool) (ml : Nat) (ops : WeightOps W) (fuel : Nat)
    (imap0 omap0 : Interner) (hmono : MonoArcs src)
    (hterm : (expandRun src ⟨mi, [], ml⟩ ops fuel imap0 omap0).stack = []) :
    (expandRun src ⟨mi, [], ml⟩ ops fuel imap0 omap0).arcs.map
        (fun e => (e.src, e.dst, e.weight)) =
      (goodPaths src mi ml ops).map
        (fun p => (src.start, pathEnd src.start p, pathWeight ops p)) ∧
    (∀ p, p ∈ goodPaths src mi ml ops ↔
      (p ≠ [] ∧ IsPath src src.start p (pathEnd src.start p) ∧
        finalOf ops src (pathEnd src.start p) ≠ ops.zero ∧
        matchCount mi p ≤ ml)) := by
  constructor
  · have hinit : expandInit src ⟨mi, [], ml⟩ ops imap0 omap0 =
        ⟨[⟨src.start, src.start, ops.one, [], []⟩],
         reserveEpsilon imap0, reserveEpsilon omap0, []⟩ := by
      unfold expandInit
      rw [phase2_nil_delim]
      rfl
    have hterm1 : (expandLoop src ⟨mi, [], ml⟩ ops fuel
        (⟨[⟨src.start, src.start, ops.one, [], []⟩],
          reserveEpsilon imap0, reserveEpsilon omap0, []⟩ : LoopSt W)).stack = [] := by
      rw [← hinit]
      exact hterm
    have hA := expandLoop_arcs_emits src ⟨mi, [], ml⟩ ops hmono fuel
      (⟨[⟨src.start, src.start, ops.one, [], []⟩],
        reserveEpsilon imap0, reserveEpsilon omap0, []⟩ : LoopSt W) hterm1
    show (expandLoop src ⟨mi, [], ml⟩ ops fuel
        (expandInit src ⟨mi, [], ml⟩ ops imap0 omap0)).arcs.map
          (fun e => (e.src, e.dst, e.weight)) = _
    rw [hinit, hA]
    show emits src ⟨mi, [], ml⟩ ops ⟨src.start, src.start, ops.one, [], []⟩ ++ [] = _
    rw [List.append_nil]
    show emitsF src ⟨mi, [], ml⟩ ops (src.arcs.length - src.start + 1)
        ⟨src.start, src.start, ops.one, [], []⟩ = _
    rw [emitsF_root_eq_goodExt src mi ml ops hmono src.start
      (src.arcs.length - src.start + 1)]
    rfl
  · intro p
    constructor
    · intro hp
      rw [goodPaths, List.mem_filter] at hp
      obtain ⟨hmem, hne⟩ := hp
      have hne1 : p ≠ [] := by simpa using hne
      obtain ⟨hpath, hfin, hbound⟩ := goodExt_sound src mi ml ops _ _ _ p hmem
      refine ⟨hne1, hpath, hfin, ?_⟩
      rcases hbound with hb | hb
      · exact absurd hb hne1
      · simpa using hb
    · rintro ⟨hne, hpath, hfin, hcount⟩
      rw [goodPaths, List.mem_filter]
      refine ⟨?_, by simpa using hne⟩
      have hlen : p.length < src.arcs.length - src.start + 1 := by
        have := isPath_length_le hmono p src.start _ hpath
        omega
      exact goodExt_complete src mi ml ops _ _ _ p hlen hpath hfin
        (Or.inr (by simpa using hcount))

/-- `MonoArcs` holds for the worked-example source. -/
theorem exSrc_mono : MonoArcs exSrc := by
  intro s a ha
  match s with
  | 0 =>
    rw [show arcsOf exSrc 0 = [⟨1, 1, some [1], 1⟩] from rfl,
      List.mem_singleton] at ha
    subst ha
    decide
  | 1 =>
    rw [show arcsOf exSrc 1 = [⟨2, 2, some [2], 2⟩] from rfl,
      List.mem_singleton] at ha
    subst ha
    decide
  | 2 =>
    rw [show arcsOf exSrc 2 = [⟨3, 3, some [3], 3⟩] from rfl,
      List.mem_singleton] at ha
    subst ha
    decide
  | 3 =>
    rw [show arcsOf exSrc 3 = [] from rfl] at ha
    exact absurd ha (List.not_mem_nil a)
  | n + 4 =>
    rw [arcsOf_eq_nil_of_le (show exSrc.arcs.length ≤ n + 4 by
      show 4 ≤ n + 4
      omega)] at ha
    exact absurd ha (List.not_mem_nil a)

/-- Witness for `no_delimiters_paths` on the worked-example source with no
delimiters: the single start-to-final path is the three-arc chain. -/
theorem no_delimiters_paths_witness :
    (expandRun exSrc ⟨false, [], 10⟩ freeOps 100 [] []).arcs.map
        (fun e => (e.src, e.dst, e.weight)) =
      (goodPaths exSrc false 10 freeOps).map
        (fun p => (exSrc.start, pathEnd exSrc.start p, pathWeight freeOps p)) ∧
    ([⟨1, 1, some [1], 1⟩, ⟨2, 2, some [2], 2⟩, ⟨3, 3, some [3], 3⟩] ∈
        goodPaths exSrc false 10 freeOps ↔
      (([⟨1, 1, some [1], 1⟩, ⟨2, 2, some [2], 2⟩,
          ⟨3, 3, some [3], 3⟩] : List (Arc (Option (List Nat)))) ≠ [] ∧
        IsPath exSrc exSrc.start
          [⟨1, 1, some [1], 1⟩, ⟨2, 2, some [2], 2⟩, ⟨3, 3, some [3], 3⟩]
          (pathEnd exSrc.start
            [⟨1, 1, some [1], 1⟩, ⟨2, 2, some [2], 2⟩, ⟨3, 3, some [3], 3⟩]) ∧
        finalOf freeOps exSrc
            (pathEnd exSrc.start
              [⟨1, 1, some [1], 1⟩, ⟨2, 2, some [2], 2⟩, ⟨3, 3, some [3], 3⟩]) ≠
          freeOps.zero ∧
        matchCount false
            [⟨1, 1, some [1], 1⟩, ⟨2, 2, some [2], 2⟩, ⟨3, 3, some [3], 3⟩] ≤
          10)) := by
  have h := no_delimiters_paths exSrc false 10 freeOps 100 [] [] exSrc_mono
    (by decide)
  exact ⟨h.1, h.2 _⟩

end LCW
